import Mathlib

/-!
Shallow embedding of `makesitex.py` (a single-file static site generator).

Texts are modelled as `List Char` (Python strings are unicode sequences;
offsets returned by `read_header` count characters, matching Python
slicing).  Python dicts whose keys/values are strings are modelled as
association lists with unique keys (`Dict`), with `dinsert` implementing
Python's "insert or overwrite in place" dict assignment.

Python code that can raise (the `IndexError` in `read_header`'s scanning
loop, the `KeyError` on `content["date"]` in `read_content`, both of which
the program turns into a fatal exit) is modelled with `Option`, `none`
standing for the raised/fatal outcome.
-/

namespace Makesitex

/-- Characters treated as whitespace by Python's `str.strip()` / `str.split()`
(ASCII part, which is all the program relies on). -/
def isPySpace (c : Char) : Bool :=
  c = ' ' || c = '\t' || c = '\n' || c = '\r' || c = '\x0b' || c = '\x0c'

/-- Python `str.strip()`. -/
def trim (l : List Char) : List Char :=
  ((l.dropWhile isPySpace).reverse.dropWhile isPySpace).reverse

/-- The front-matter delimiter line `---` of `read_header`. -/
def sentinel : List Char := ['-', '-', '-']

/-- String literals as char lists. -/
def sl (s : String) : List Char := s.toList

/-- Python `dict` with string keys and values, as an association list with
unique keys. -/
abbrev Dict := List (List Char × List Char)

/-- Python `d[k]` / `d.get(k)` lookup. -/
def dlookup (m : Dict) (k : List Char) : Option (List Char) :=
  match m with
  | [] => none
  | (k', v) :: rest => if k' = k then some v else dlookup rest k

/-- Python `d[k] = v`: overwrite in place if the key exists, else append. -/
def dinsert (m : Dict) (k v : List Char) : Dict :=
  match m with
  | [] => [(k, v)]
  | (k', v') :: rest => if k' = k then (k, v) :: rest else (k', v') :: dinsert rest k v

/-- Python `c.update(h)`: assign every pair of `h`, in order, into `c`. -/
def dupdate (c h : Dict) : Dict :=
  h.foldl (fun m kv => dinsert m kv.1 kv.2) c

/-- Python `text.split("\n")` (never returns an empty list). -/
def splitOnNl : List Char → List (List Char)
  | [] => [[]]
  | c :: cs =>
    match splitOnNl cs with
    | [] => [[]]
    | r :: rs => if c = '\n' then [] :: r :: rs else (c :: r) :: rs

/-- Inverse of `splitOnNl`: `"\n".join(lines)`. -/
def joinNl : List (List Char) → List Char
  | [] => []
  | [w] => w
  | w :: ws => w ++ '\n' :: joinNl ws

/-- Total length of the lines counting one `\n` per line, exactly as the
`end += len(lines[i]) + 1` accumulation in `read_header`. -/
def sumLens (ls : List (List Char)) : Nat :=
  match ls with
  | [] => 0
  | l :: rest => l.length + 1 + sumLens rest

/-- The per-line `re.match(r"^([^:]+):(.*)$", line)` of `read_header`:
a non-empty colon-free key before the first colon, the rest the value,
both stripped. -/
def parseKV (l : List Char) : Option (List Char × List Char) :=
  match l.dropWhile (fun c => c ≠ ':') with
  | ':' :: v => if (l.takeWhile (fun c => c ≠ ':')).isEmpty then none
                else some (trim (l.takeWhile (fun c => c ≠ ':')), trim v)
  | _ => none

/-- One iteration of the header loop body on a non-sentinel line. -/
def kvStep (m : Dict) (l : List Char) : Dict :=
  match parseKV l with
  | some kv => dinsert m kv.1 kv.2
  | none => m

/-- The `while lines[i].strip() != "---"` loop of `read_header`, scanning the
lines after the opening sentinel.  Running off the end of the list is the
`IndexError` of the original, modelled as `none`. -/
def scanHeader : List (List Char) → Dict → Nat → Option (Dict × Nat)
  | [], _, _ => none
  | l :: rest, acc, pos =>
    if trim l = sentinel then some (acc, pos + l.length + 1)
    else scanHeader rest (kvStep acc l) (pos + l.length + 1)

/-- `read_header` from the source: parse the front-matter block, returning the
mapping and the end offset; `([], 0)` when the first line is not the
sentinel; `none` for the out-of-range crash on an unterminated block. -/
def read_header (text : List Char) : Option (Dict × Nat) :=
  match splitOnNl text with
  | [] => none
  | l0 :: rest =>
    if trim l0 = sentinel then scanHeader rest [] (l0.length + 1)
    else some ([], 0)

/-- The `\d` character class: code points of `'0'..'9'`. -/
def isDigitC (c : Char) : Bool := 48 ≤ c.toNat && c.toNat ≤ 57

/-- Numeric value of a digit character. -/
def digitVal (c : Char) : Nat := c.toNat - 48

/-- Numeric value of a digit string. -/
def toNatD (w : List Char) : Nat := w.foldl (fun a c => a * 10 + digitVal c) 0

/-- Shape `\d\d\d\d-\d\d-\d\d` (the ten-character date prefix of
`read_content`'s filename regex). -/
def isDate10 (s : List Char) : Bool :=
  match s with
  | [a, b, c, d, e, f, g, h, i, j] =>
    isDigitC a && isDigitC b && isDigitC c && isDigitC d && e = '-' &&
    isDigitC f && isDigitC g && h = '-' && isDigitC i && isDigitC j
  | _ => false

/-- Does the stem start with a `YYYY-MM-DD-` prefix followed by a non-empty
slug (the greedy optional group of `^(?:(\d\d\d\d-\d\d-\d\d)-)?(.+)$`)? -/
def hasDatePrefix (s : List Char) : Bool :=
  isDate10 (s.take 10) &&
  (match s.drop 10 with
   | '-' :: r => !r.isEmpty
   | _ => false)

/-- The default date `"1970-01-01"`. -/
def epochDate : List Char := ['1', '9', '7', '0', '-', '0', '1', '-', '0', '1']

/-- The filename-derived `(date, slug)` pair of `read_content`:
`re.search(r"^(?:(\d\d\d\d-\d\d-\d\d)-)?(.+)$", date_slug)` with the
`match.group(1) or "1970-01-01"` default; `none` models a failed match
(empty stem), in which case `read_content` updates nothing. -/
def dateSlug (s : List Char) : Option (List Char × List Char) :=
  if s.isEmpty then none
  else if hasDatePrefix s then some (s.take 10, s.drop 11)
  else some (epochDate, s)

/-- `os.path.basename`: the part after the last `/`. -/
def basename (p : List Char) : List Char :=
  (p.reverse.takeWhile (fun c => c ≠ '/')).reverse

/-- `os.path.basename(filename).split(".")[0]`: the stem before the first dot. -/
def stemOf (p : List Char) : List Char := (basename p).takeWhile (fun c => c ≠ '.')

/-- Candidate matches for CPython strptime's `%m` field, regex
`1[0-2]|0[1-9]|[1-9]`, in alternation order: each candidate is the parsed
month and the remaining input. -/
def mCands : List Char → List (Nat × List Char)
  | a :: b :: rest =>
    (if (a.toNat = 49 && isDigitC b && digitVal b ≤ 2) ||
        (a.toNat = 48 && isDigitC b && 1 ≤ digitVal b) then
      [(digitVal a * 10 + digitVal b, rest)] else []) ++
    (if isDigitC a && 1 ≤ digitVal a then [(digitVal a, b :: rest)] else [])
  | [a] => if isDigitC a && 1 ≤ digitVal a then [(digitVal a, [])] else []
  | [] => []

/-- Candidate matches for CPython strptime's `%d` field, regex
`3[01]|[12]\d|0[1-9]|[1-9]`, in alternation order. -/
def dCands : List Char → List (Nat × List Char)
  | a :: b :: rest =>
    (if (a.toNat = 51 && isDigitC b && digitVal b ≤ 1) ||
        ((a.toNat = 49 || a.toNat = 50) && isDigitC b) ||
        (a.toNat = 48 && isDigitC b && 1 ≤ digitVal b) then
      [(digitVal a * 10 + digitVal b, rest)] else []) ++
    (if isDigitC a && 1 ≤ digitVal a then [(digitVal a, b :: rest)] else [])
  | [a] => if isDigitC a && 1 ≤ digitVal a then [(digitVal a, [])] else []
  | [] => []

/-- CPython strptime's `%Y` field: exactly four digits. -/
def year4 : List Char → Option (Nat × List Char)
  | a :: b :: c :: d :: rest =>
    if isDigitC a && isDigitC b && isDigitC c && isDigitC d then
      some (((digitVal a * 10 + digitVal b) * 10 + digitVal c) * 10 + digitVal d, rest)
    else none
  | _ => none

/-- First candidate on which the continuation succeeds (regex backtracking
over an alternation). -/
def firstHit (f : Nat × List Char → Option (Nat × Nat × Nat)) :
    List (Nat × List Char) → Option (Nat × Nat × Nat)
  | [] => none
  | c :: cs =>
    match f c with
    | some v => some v
    | none => firstHit f cs

/-- The literal `-` of the pattern `%Y-%m-%d`: consume one dash. -/
def expectDash : List Char → Option (List Char)
  | c :: r => if c = '-' then some r else none
  | [] => none

/-- Full-string regex match of the pattern `%Y-%m-%d` (strptime requires the
match to consume the whole input). -/
def matchDashed (s : List Char) : Option (Nat × Nat × Nat) :=
  match year4 s with
  | none => none
  | some yr =>
    match expectDash yr.2 with
    | none => none
    | some r2 =>
      firstHit (fun mc =>
        match expectDash mc.2 with
        | none => none
        | some r3 =>
          firstHit (fun dc =>
            if dc.2.isEmpty then some (yr.1, mc.1, dc.1) else none)
            (dCands r3)) (mCands r2)

/-- Full-string regex match of the pattern `%Y%m%d`. -/
def matchCompact (s : List Char) : Option (Nat × Nat × Nat) :=
  match year4 s with
  | none => none
  | some yr =>
    firstHit (fun mc =>
      firstHit (fun dc =>
        if dc.2.isEmpty then some (yr.1, mc.1, dc.1) else none) (dCands mc.2))
      (mCands yr.2)

/-- Gregorian leap year (as in Python's `datetime`). -/
def isLeap (y : Nat) : Bool := (y % 4 = 0 && y % 100 ≠ 0) || y % 400 = 0

/-- Days in a month (as validated by `datetime`'s constructor). -/
def daysInMonth (y m : Nat) : Nat :=
  if m = 2 then (if isLeap y then 29 else 28)
  else if m = 4 || m = 6 || m = 9 || m = 11 then 30
  else 31

/-- `datetime(y, m, d)` constructor validation (`MINYEAR = 1`,
`MAXYEAR = 9999`). -/
def validDate (y m d : Nat) : Bool :=
  1 ≤ y && y ≤ 9999 && 1 ≤ m && m ≤ 12 && 1 ≤ d && d ≤ daysInMonth y m

/-- `datetime.strptime(s, "%Y-%m-%d")`: regex match, then constructor
validation of the single match found. -/
def strptimeDashed (s : List Char) : Option (Nat × Nat × Nat) :=
  match matchDashed s with
  | some ymd => if validDate ymd.1 ymd.2.1 ymd.2.2 then some ymd else none
  | none => none

/-- `datetime.strptime(s, "%Y%m%d")`. -/
def strptimeCompact (s : List Char) : Option (Nat × Nat × Nat) :=
  match matchCompact s with
  | some ymd => if validDate ymd.1 ymd.2.1 ymd.2.2 then some ymd else none
  | none => none

/-- Zero-padded two-digit field. -/
def pad2 (n : Nat) : List Char :=
  if n < 10 then '0' :: Nat.toDigits 10 n else Nat.toDigits 10 n

/-- Zero-padded four-digit year. -/
def pad4 (n : Nat) : List Char :=
  List.replicate (4 - (Nat.toDigits 10 n).length) '0' ++ Nat.toDigits 10 n

/-- `%b` month abbreviations (C locale, as CPython produces). -/
def monthNames : List (List Char) :=
  [sl "Jan", sl "Feb", sl "Mar", sl "Apr", sl "May", sl "Jun",
   sl "Jul", sl "Aug", sl "Sep", sl "Oct", sl "Nov", sl "Dec"]

/-- `%a` weekday abbreviations, indexed with Monday = 0. -/
def dayNames : List (List Char) :=
  [sl "Mon", sl "Tue", sl "Wed", sl "Thu", sl "Fri", sl "Sat", sl "Sun"]

/-- Day of week via Zeller's congruence, Monday = 0. -/
def dayOfWeekMon (y m d : Nat) : Nat :=
  let yy := if m < 3 then y - 1 else y
  let mm := if m < 3 then m + 12 else m
  (d + 13 * (mm + 1) / 5 + yy % 100 + yy % 100 / 4 + yy / 100 / 4 + 5 * (yy / 100) + 5) % 7

/-- One strftime directive; time fields are zero (strptime leaves the time at
midnight); a directive the program never uses is passed through verbatim. -/
def strfDir (y m d : Nat) (c : Char) : List Char :=
  if c = 'Y' then pad4 y
  else if c = 'm' then pad2 m
  else if c = 'd' then pad2 d
  else if c = 'H' || c = 'M' || c = 'S' then ['0', '0']
  else if c = 'a' then (dayNames.getD (dayOfWeekMon y m d) [])
  else if c = 'b' then (monthNames.getD (m - 1) [])
  else if c = '%' then ['%']
  else ['%', c]

/-- `d.strftime(format)` over the directives the program uses. -/
def strftime (y m d : Nat) : List Char → List Char
  | [] => []
  | '%' :: c :: rest => strfDir y m d c ++ strftime y m d rest
  | c :: rest => c :: strftime y m d rest

/-- `format_time` from the source: try `"%Y-%m-%d"` then `"%Y%m%d"`; reformat
the first parse that succeeds; on total failure log a warning and return
the empty string. -/
def format_time (date_str : List Char) (format : List Char) : List Char :=
  match strptimeDashed date_str with
  | some ymd => strftime ymd.1 ymd.2.1 ymd.2.2 format
  | none =>
    match strptimeCompact date_str with
    | some ymd => strftime ymd.1 ymd.2.1 ymd.2.2 format
    | none => []

/-- The strftime format for `short_date`. -/
def shortFormat : List Char := sl "%Y-%m-%d"

/-- The strftime format for `rfc_2822_date`. -/
def rfcFormat : List Char := sl "%a, %d %b %Y %H:%M:%S +0000"

/-- The keys written by the final `content.update({...})` of `read_content`. -/
def finalKeys : List (List Char) :=
  [sl "content", sl "short_date", sl "human_date", sl "rfc_2822_date"]

/-- The built-in defaults of `make_site` (`current_year` is an integer in the
source, rendered here as its digit string; no claim depends on it). -/
def default_site_params (currentYear : List Char) : Dict :=
  [(sl "author", sl "Admin"), (sl "site_subtitle", []), (sl "site_description", []),
   (sl "date_human_format", sl "%d %b, %Y"), (sl "current_year", currentYear)]

/-- The `content.update({"date": ..., "slug": ...})` step of `read_content`:
base parameters plus the filename-derived pair when the filename regex
matched (it fails only on an empty stem, and then updates nothing). -/
def baseParams (filename : List Char) (site_params : Dict) : Dict :=
  match dateSlug (stemOf filename) with
  | some ds => dinsert (dinsert site_params (sl "date") ds.1) (sl "slug") ds.2
  | none => site_params

/-- `read_content` from the source, with the file's text passed in place of
the `fread` call.  `none` models the fatal `log_critical` path (header
crash, or `KeyError` on `content["date"]` / `content["date_human_format"]`). -/
def read_content (filename text : List Char) (site_params : Dict) : Option Dict :=
  match read_header text with
  | none => none
  | some he =>
    let c2 := dupdate (baseParams filename site_params) he.1
    match dlookup c2 (sl "date"), dlookup c2 (sl "date_human_format") with
    | some dt, some hf =>
      some (dinsert (dinsert (dinsert (dinsert c2
        (sl "content") (text.drop he.2))
        (sl "short_date") (format_time dt shortFormat))
        (sl "human_date") (format_time dt hf))
        (sl "rfc_2822_date") (format_time dt rfcFormat))
    | _, _ => none

/-- `text.replace('"', "'")`. -/
def convertQuotes (l : List Char) : List Char :=
  l.map (fun c => if c = '"' then '\'' else c)

/-- `.replace("\n", " ")`. -/
def convertNewlines (l : List Char) : List Char :=
  l.map (fun c => if c = '\n' then ' ' else c)

/-- `re.sub("(?s)<.*?>", " ", clean)` as a two-state scanner: outside a tag,
a `<` that has a later `>` starts a match (replaced by one space); inside,
characters up to and including the next `>` are consumed. -/
def stripTagsGo : Bool → List Char → List Char
  | _, [] => []
  | true, c :: cs => if c = '>' then stripTagsGo false cs else stripTagsGo true cs
  | false, c :: cs =>
    if c = '<' && cs.contains '>' then ' ' :: stripTagsGo true cs
    else c :: stripTagsGo false cs

/-- The tag-removal substitution of `truncate`. -/
def stripTags (l : List Char) : List Char := stripTagsGo false l

/-- `str.split()` with no separator: runs of whitespace separate words, empty
words are dropped (`acc` holds the current word reversed). -/
def pySplitGo : List Char → List Char → List (List Char)
  | acc, [] => if acc.isEmpty then [] else [acc.reverse]
  | acc, c :: cs =>
    if isPySpace c then
      (if acc.isEmpty then pySplitGo [] cs else acc.reverse :: pySplitGo [] cs)
    else pySplitGo (c :: acc) cs

/-- Python `text.split()`. -/
def pySplit (l : List Char) : List (List Char) := pySplitGo [] l

/-- `" ".join(words)`. -/
def joinSpace : List (List Char) → List Char
  | [] => []
  | [w] => w
  | w :: ws => w ++ ' ' :: joinSpace ws

/-- Concatenation of a list of strings (`"".join`). -/
def catAll : List (List Char) → List Char
  | [] => []
  | w :: ws => w ++ catAll ws

/-- The default `words=25` of `truncate`. -/
def defaultWordLimit : Nat := 25

/-- `truncate` from the source: convert quotes, flatten newlines, strip tags,
split into words, keep the first `words`, and rejoin with single spaces. -/
def truncate (text : List Char) (words : Nat) : List Char :=
  joinSpace ((pySplit (stripTags (convertNewlines (convertQuotes text)))).take words)

/-- Python string `<` (lexicographic by code point). -/
def strLt : List Char → List Char → Bool
  | [], [] => false
  | [], _ :: _ => true
  | _ :: _, [] => false
  | a :: as, b :: bs => if a < b then true else if b < a then false else strLt as bs

/-- The sort key `lambda x: x["date"]` (every item produced by the pipeline
carries a `date`). -/
def dateOf (m : Dict) : List Char := (dlookup m (sl "date")).getD []

/-- Stable insertion for descending order by date: the inserted item, being
earlier in the original enumeration, goes before every item whose date is
not strictly greater. -/
def insertByDate (x : Dict) : List Dict → List Dict
  | [] => [x]
  | y :: ys => if strLt (dateOf x) (dateOf y) then y :: insertByDate x ys
               else x :: y :: ys

/-- Python `sorted(items, key=lambda x: x["date"], reverse=True)`: a stable
descending sort by the `date` field. -/
def sortByDateDesc (l : List Dict) : List Dict := l.foldr insertByDate []

/-- Python truthiness of a `render_page` result: `None` and the empty dict
are falsy (`if not output_dict: continue`). -/
def truthy (o : Option Dict) : Option Dict :=
  match o with
  | some d => if d.isEmpty then none else some d
  | none => none

/-- `make_pages` with the per-file `render_page` outcomes passed as a list
(rendering and file writes abstracted): collect the truthy results in glob
order and return them sorted by date descending. -/
def make_pages (render_results : List (Option Dict)) : List Dict :=
  sortByDateDesc (render_results.filterMap truthy)

/-- Python `a or b` for the summary chain: `None` and `""` are falsy. -/
def orFalsy (a : Option (List Char)) (b : List Char) : List Char :=
  match a with
  | some v => if v.isEmpty then b else v
  | none => b

/-- The summary computed per item by `make_index`:
`page.get("summary") or page.get("description") or truncate(page["content"])`. -/
def summary_of (page : Dict) : List Char :=
  orFalsy (dlookup page (sl "summary"))
    (orFalsy (dlookup page (sl "description"))
      (truncate ((dlookup page (sl "content")).getD []) defaultWordLimit))

/-- `item_params = dict(site_params, **page_dict)` followed by
`item_params["summary"] = ...` in `make_index`'s loop. -/
def item_params_of (site page : Dict) : Dict :=
  dinsert (dupdate site page) (sl "summary") (summary_of page)

/-- The state effect of `make_index` on the `site_params` dict it is handed
(the source mutates it in place; here the mutated dict is returned):
render every item, then set `front_content` when a truthy front-content
block is given, then always set `content` to the concatenation.  The item
layout render is an opaque function of the item parameters. -/
def make_index_step (render_item : Dict → List Char) (front_content : Option Dict)
    (pages : List Dict) (site_params : Dict) : Dict :=
  let items := pages.map (fun p => render_item (item_params_of site_params p))
  let s1 := match front_content with
    | some f => if f.isEmpty then site_params
                else dinsert site_params (sl "front_content")
                       ((dlookup f (sl "content")).getD [])
    | none => site_params
  dinsert s1 (sl "content") (catAll items)

/-- Keys with only `<` and `>` kept: the claim "all HTML tags removed" is
read as "no tag-shaped substring `<...>` remains", which is equivalent to
no `<` occurring anywhere before a `>`. -/
def hasOpenClose (l : List Char) : Bool :=
  ((l.dropWhile (fun c => c ≠ '<')).contains '>')

/-- Predicate keeping only the angle-bracket characters. -/
def isAngle (c : Char) : Bool := c = '<' || c = '>'

/-- Unique keys invariant of the `Dict` model. -/
def NodupKeys (m : Dict) : Prop := (m.map Prod.fst).Nodup

/-- Modelled from the spec (claim C7's wording): the literal shape
`YYYY-MM-DD` or `YYYYMMDD` — four digits, two digits, two digits. -/
def shapeClaimed (s : List Char) : Bool :=
  isDate10 s || (s.length = 8 && s.all isDigitC)

/-- A 1-2 digit strptime field with value between 1 and `mx` (the value sets
recognised by the `%m` / `%d` regexes). -/
def fieldOK (mx : Nat) (w : List Char) : Prop :=
  (∀ c ∈ w, isDigitC c = true) ∧ (w.length = 1 ∨ w.length = 2) ∧
  1 ≤ toNatD w ∧ toNatD w ≤ mx

/-- The strings accepted by `strptime(s, "%Y-%m-%d")`: a four-digit year of at
least 1, dash, 1-2 digit month, dash, 1-2 digit day valid for that month. -/
def ValidDashed (s : List Char) : Prop :=
  ∃ ys ms ds : List Char,
    s = ys ++ '-' :: (ms ++ '-' :: ds) ∧
    ys.length = 4 ∧ (∀ c ∈ ys, isDigitC c = true) ∧
    fieldOK 12 ms ∧ fieldOK 31 ds ∧
    1 ≤ toNatD ys ∧ toNatD ds ≤ daysInMonth (toNatD ys) (toNatD ms)

/-! ### Basic lemmas on the header parser -/

theorem splitOnNl_cons_nl (cs : List Char) (r : List Char) (rs : List (List Char))
    (h : splitOnNl cs = r :: rs) : splitOnNl ('\n' :: cs) = [] :: r :: rs := by
  simp [splitOnNl, h]

theorem splitOnNl_cons_other (c : Char) (cs : List Char) (r : List Char)
    (rs : List (List Char)) (hc : c ≠ '\n') (h : splitOnNl cs = r :: rs) :
    splitOnNl (c :: cs) = (c :: r) :: rs := by
  simp only [splitOnNl, h]
  rw [if_neg hc]

theorem splitOnNl_ne_nil (l : List Char) : splitOnNl l ≠ [] := by
  cases l with
  | nil => simp [splitOnNl]
  | cons c cs =>
    rcases h : splitOnNl cs with _ | ⟨r, rs⟩
    · exact absurd h (splitOnNl_ne_nil cs)
    · by_cases hc : c = '\n'
      · subst hc; rw [splitOnNl_cons_nl cs r rs h]; simp
      · rw [splitOnNl_cons_other c cs r rs hc h]; simp

theorem joinNl_cons_of_ne_nil (w : List Char) (l : List (List Char)) (h : l ≠ []) :
    joinNl (w :: l) = w ++ '\n' :: joinNl l := by
  cases l with
  | nil => exact absurd rfl h
  | cons x xs => rfl

theorem joinNl_splitOnNl (l : List Char) : joinNl (splitOnNl l) = l := by
  induction l with
  | nil => rfl
  | cons c cs ih =>
    rcases h : splitOnNl cs with _ | ⟨r, rs⟩
    · exact absurd h (splitOnNl_ne_nil cs)
    · rw [h] at ih
      by_cases hc : c = '\n'
      · subst hc
        rw [splitOnNl_cons_nl cs r rs h, joinNl_cons_of_ne_nil _ _ (by simp), ih]
        rfl
      · rw [splitOnNl_cons_other c cs r rs hc h]
        cases rs with
        | nil =>
          simp only [joinNl] at ih ⊢
          rw [ih]
        | cons y ys =>
          rw [joinNl_cons_of_ne_nil _ _ (by simp)]
          rw [joinNl_cons_of_ne_nil _ _ (by simp)] at ih
          rw [List.cons_append, ih]

theorem scanHeader_no_sentinel (ls : List (List Char)) (acc : Dict) (pos : Nat)
    (h : ∀ l ∈ ls, trim l ≠ sentinel) : scanHeader ls acc pos = none := by
  induction ls generalizing acc pos with
  | nil => rfl
  | cons l rest ih =>
    simp only [scanHeader, if_neg (h l (by simp))]
    exact ih _ _ (fun x hx => h x (by simp [hx]))

theorem scanHeader_found (pre : List (List Char)) (s : List Char)
    (post : List (List Char)) (acc : Dict) (pos : Nat)
    (hpre : ∀ l ∈ pre, trim l ≠ sentinel) (hs : trim s = sentinel) :
    scanHeader (pre ++ s :: post) acc pos =
      some (pre.foldl kvStep acc, pos + sumLens pre + (s.length + 1)) := by
  induction pre generalizing acc pos with
  | nil =>
    simp only [List.nil_append, scanHeader]
    rw [if_pos hs]
    simp only [List.foldl_nil, sumLens, Option.some.injEq, Prod.mk.injEq]
    exact ⟨by simp, by omega⟩
  | cons l rest ih =>
    rw [List.cons_append]
    simp only [scanHeader]
    rw [if_neg (hpre l (by simp))]
    rw [ih _ _ (fun x hx => hpre x (by simp [hx]))]
    simp only [List.foldl_cons, sumLens, Option.some.injEq, Prod.mk.injEq]
    exact ⟨by simp, by omega⟩

theorem drop_line (w X : List Char) : (w ++ '\n' :: X).drop (w.length + 1) = X := by
  have h1 : w ++ '\n' :: X = (w ++ ['\n']) ++ X := by simp
  have h2 : w.length + 1 = (w ++ ['\n']).length := by simp
  rw [h1, h2, List.drop_left]

theorem drop_joinNl (pre : List (List Char)) (s : List Char) (post : List (List Char)) :
    (joinNl (pre ++ s :: post)).drop (sumLens pre + (s.length + 1)) = joinNl post := by
  induction pre with
  | nil =>
    cases post with
    | nil =>
      simp only [List.nil_append, joinNl, sumLens]
      apply List.drop_eq_nil_of_le
      simp
    | cons p ps =>
      simp only [List.nil_append, sumLens, Nat.zero_add]
      rw [joinNl_cons_of_ne_nil _ _ (by simp)]
      exact drop_line s (joinNl (p :: ps))
  | cons w rest ih =>
    rw [List.cons_append, joinNl_cons_of_ne_nil _ _ (by simp)]
    have harith : sumLens (w :: rest) + (s.length + 1) =
        (w.length + 1) + (sumLens rest + (s.length + 1)) := by
      simp only [sumLens]; omega
    rw [harith, ← List.drop_drop, drop_line, ih]

/-! ### Claim theorems for the header parser -/

/-- C1: when the first line of the text trims to the sentinel `---` and a
later line also trims to it, `read_header` returns the mapping obtained by
folding the `key: value` extraction over the intervening lines (later
duplicates overwriting, colon-free lines skipped, via `kvStep`) together
with an offset that cuts the text exactly at the start of the first line
after the closing sentinel; when the first line does not trim to the
sentinel it returns the empty mapping and offset 0. -/
theorem read_header_correct (text : List Char) :
    (∀ l0 pre s post,
        splitOnNl text = l0 :: (pre ++ s :: post) →
        trim l0 = sentinel →
        (∀ l ∈ pre, trim l ≠ sentinel) →
        trim s = sentinel →
        read_header text =
          some (pre.foldl kvStep [],
            (l0.length + 1) + sumLens pre + (s.length + 1)) ∧
        text.drop ((l0.length + 1) + sumLens pre + (s.length + 1)) = joinNl post) ∧
    (∀ l0 rest,
        splitOnNl text = l0 :: rest →
        trim l0 ≠ sentinel →
        read_header text = some ([], 0)) := by
  constructor
  · intro l0 pre s post hsplit h0 hpre hs
    constructor
    · simp only [read_header, hsplit, if_pos h0]
      rw [scanHeader_found pre s post [] (l0.length + 1) hpre hs]
    · have htext : text = joinNl (l0 :: (pre ++ s :: post)) := by
        rw [← hsplit, joinNl_splitOnNl]
      rw [htext, joinNl_cons_of_ne_nil _ _ (by simp)]
      have harith : (l0.length + 1) + sumLens pre + (s.length + 1) =
          (l0.length + 1) + (sumLens pre + (s.length + 1)) := by omega
      rw [harith, ← List.drop_drop, drop_line, drop_joinNl]
  · intro l0 rest hsplit h0
    simp only [read_header, hsplit, if_neg h0]

/-- Witness for C1: both branches at concrete inputs. -/
theorem read_header_correct_witness :
    (read_header (sl "---\na: 1\n---\nbody") =
        some ([(sl "a", sl "1")], 13) ∧
      (sl "---\na: 1\n---\nbody").drop 13 = joinNl [sl "body"]) ∧
    read_header (sl "plain\ntext") = some ([], 0) := by
  constructor
  · have h := (read_header_correct (sl "---\na: 1\n---\nbody")).1
      (sl "---") [sl "a: 1"] (sl "---") [sl "body"]
      (by decide) (by decide) (by decide) (by decide)
    exact ⟨h.1, h.2⟩
  · exact (read_header_correct (sl "plain\ntext")).2 (sl "plain") [sl "text"]
      (by decide) (by decide)

/-- C8: when the first line trims to the sentinel but no later line does, the
scanning loop of `read_header` runs off the end of the line list; the
resulting `IndexError` is modelled by the `none` outcome. -/
theorem read_header_unterminated (text l0 : List Char) (rest : List (List Char))
    (hsplit : splitOnNl text = l0 :: rest)
    (h0 : trim l0 = sentinel)
    (hrest : ∀ l ∈ rest, trim l ≠ sentinel) :
    read_header text = none := by
  simp only [read_header, hsplit, if_pos h0]
  exact scanHeader_no_sentinel rest [] (l0.length + 1) hrest

/-- Witness for C8 at a concrete unterminated header. -/
theorem read_header_unterminated_witness :
    read_header (sl "---\nkey: value") = none :=
  read_header_unterminated (sl "---\nkey: value") (sl "---") [sl "key: value"]
    (by decide) (by decide) (by decide)

/-- C9 counterexample: a text with a valid (opened and closed) header block
whose remainder starts with another sentinel line; re-parsing the
remainder detects a second header block instead of returning `([], 0)`. -/
theorem read_header_not_idempotent :
    read_header (sl "---\na: 1\n---\n---\nb: 2\n---\nx") =
      some ([(sl "a", sl "1")], 13) ∧
    read_header ((sl "---\na: 1\n---\n---\nb: 2\n---\nx").drop 13) =
      some ([(sl "b", sl "2")], 13) ∧
    read_header ((sl "---\na: 1\n---\n---\nb: 2\n---\nx").drop 13) ≠
      some ([], 0) := by
  refine ⟨by decide, by decide, by decide⟩

/-- C9 amended: re-parsing the remainder of a parsed header block returns the
empty mapping and offset 0 whenever the remainder's own first line does
not trim to the sentinel (as the counterexample shows, a body starting
with a `---` line is detected as a second header block). -/
theorem read_header_remainder (text : List Char) (m : Dict) (o : Nat)
    (l0 : List Char) (rest : List (List Char))
    (_hparse : read_header text = some (m, o))
    (hsplit : splitOnNl (text.drop o) = l0 :: rest)
    (h0 : trim l0 ≠ sentinel) :
    read_header (text.drop o) = some ([], 0) := by
  simp only [read_header, hsplit, if_neg h0]

/-- Witness for the amended C9 at a concrete input. -/
theorem read_header_remainder_witness :
    read_header ((sl "---\na: 1\n---\nbody").drop 13) = some ([], 0) :=
  read_header_remainder (sl "---\na: 1\n---\nbody") [(sl "a", sl "1")] 13
    (sl "body") [] (by decide) (by decide) (by decide)

/-! ### Dictionary lemmas -/

theorem dlookup_dinsert_self (m : Dict) (k v : List Char) :
    dlookup (dinsert m k v) k = some v := by
  induction m with
  | nil => simp [dinsert, dlookup]
  | cons p rest ih =>
    obtain ⟨k', v'⟩ := p
    by_cases h : k' = k
    · simp [dinsert, dlookup, h]
    · simp [dinsert, dlookup, h, ih]

theorem dlookup_dinsert_ne (m : Dict) (k' k v : List Char) (h : k' ≠ k) :
    dlookup (dinsert m k' v) k = dlookup m k := by
  induction m with
  | nil => simp [dinsert, dlookup, h]
  | cons p rest ih =>
    obtain ⟨k0, v0⟩ := p
    by_cases h0 : k0 = k'
    · simp [dinsert, dlookup, h0, h]
    · by_cases h1 : k0 = k
      · subst h1
        simp [dinsert, dlookup, h0, Ne.symm h]
      · simp [dinsert, dlookup, h0, h1, ih]

theorem dlookup_dupdate_no_key (c : Dict) (h : Dict) (k : List Char)
    (hn : ∀ kv ∈ h, kv.1 ≠ k) : dlookup (dupdate c h) k = dlookup c k := by
  induction h generalizing c with
  | nil => rfl
  | cons p rest ih =>
    simp only [dupdate, List.foldl_cons] at *
    rw [ih (dinsert c p.1 p.2) (fun kv hkv => hn kv (by simp [hkv]))]
    exact dlookup_dinsert_ne c p.1 k p.2 (hn p (by simp))

theorem keys_dinsert_mem (m : Dict) (k v k0 : List Char)
    (h : k0 ∈ (dinsert m k v).map Prod.fst) : k0 = k ∨ k0 ∈ m.map Prod.fst := by
  induction m with
  | nil => simpa [dinsert] using h
  | cons p rest ih =>
    by_cases hp : p.1 = k
    · rw [show dinsert (p :: rest) k v = (k, v) :: rest by
        simp [dinsert, hp]] at h
      simp only [List.map_cons, List.mem_cons] at h
      rcases h with h | h
      · exact Or.inl h
      · exact Or.inr (by simp [h])
    · rw [show dinsert (p :: rest) k v = p :: dinsert rest k v by
        simp [dinsert, hp]] at h
      simp only [List.map_cons, List.mem_cons] at h
      rcases h with h | h
      · exact Or.inr (by simp [h])
      · rcases ih h with h | h
        · exact Or.inl h
        · exact Or.inr (by simp [h])

theorem dinsert_nodupKeys (m : Dict) (k v : List Char) (h : NodupKeys m) :
    NodupKeys (dinsert m k v) := by
  induction m with
  | nil => simp [dinsert, NodupKeys]
  | cons p rest ih =>
    simp only [NodupKeys, List.map_cons, List.nodup_cons] at h
    by_cases hp : p.1 = k
    · rw [show dinsert (p :: rest) k v = (k, v) :: rest by simp [dinsert, hp]]
      simp only [NodupKeys, List.map_cons, List.nodup_cons]
      exact ⟨by rw [← hp]; exact h.1, h.2⟩
    · rw [show dinsert (p :: rest) k v = p :: dinsert rest k v by simp [dinsert, hp]]
      simp only [NodupKeys, List.map_cons, List.nodup_cons]
      refine ⟨fun hmem => ?_, ih h.2⟩
      rcases keys_dinsert_mem rest k v p.1 hmem with h' | h'
      · exact hp h'
      · exact h.1 h'

theorem dlookup_eq_none_of_no_key (m : Dict) (k : List Char)
    (h : k ∉ m.map Prod.fst) : dlookup m k = none := by
  induction m with
  | nil => rfl
  | cons p rest ih =>
    simp only [List.map_cons, List.mem_cons, not_or] at h
    have hne : p.1 ≠ k := fun hh => h.1 hh.symm
    simp [dlookup, hne, ih h.2]

theorem dlookup_dupdate_of_nodup (c : Dict) (h : Dict) (k v : List Char)
    (hnd : NodupKeys h) (hv : dlookup h k = some v) :
    dlookup (dupdate c h) k = some v := by
  induction h generalizing c with
  | nil => simp [dlookup] at hv
  | cons p rest ih =>
    simp only [NodupKeys, List.map_cons, List.nodup_cons] at hnd
    simp only [dupdate, List.foldl_cons] at *
    by_cases hp : p.1 = k
    · have hvv : p.2 = v := by simpa [dlookup, hp] using hv
      have hnk : ∀ kv ∈ rest, kv.1 ≠ k := by
        intro kv hkv hk
        apply hnd.1
        have hmm : kv.1 ∈ List.map Prod.fst rest := List.mem_map_of_mem Prod.fst hkv
        rwa [hk, ← hp] at hmm
      rw [show List.foldl (fun m kv => dinsert m kv.1 kv.2) (dinsert c p.1 p.2) rest
            = dupdate (dinsert c p.1 p.2) rest from rfl]
      rw [dlookup_dupdate_no_key _ _ _ hnk, hp, hvv]
      exact dlookup_dinsert_self c k v
    · have hv' : dlookup rest k = some v := by simpa [dlookup, hp] using hv
      exact ih (dinsert c p.1 p.2) hnd.2 hv'

theorem kvStep_nodupKeys (m : Dict) (l : List Char) (h : NodupKeys m) :
    NodupKeys (kvStep m l) := by
  unfold kvStep
  cases parseKV l with
  | none => exact h
  | some kv => exact dinsert_nodupKeys m kv.1 kv.2 h

theorem scanHeader_nodupKeys (ls : List (List Char)) (acc : Dict) (pos : Nat)
    (m : Dict) (o : Nat) (hs : scanHeader ls acc pos = some (m, o))
    (hacc : NodupKeys acc) : NodupKeys m := by
  induction ls generalizing acc pos with
  | nil => simp [scanHeader] at hs
  | cons l rest ih =>
    simp only [scanHeader] at hs
    by_cases hl : trim l = sentinel
    · rw [if_pos hl] at hs
      simp only [Option.some.injEq, Prod.mk.injEq] at hs
      exact hs.1 ▸ hacc
    · rw [if_neg hl] at hs
      exact ih _ _ hs (kvStep_nodupKeys acc l hacc)

theorem read_header_nodupKeys (text : List Char) (m : Dict) (o : Nat)
    (h : read_header text = some (m, o)) : NodupKeys m := by
  rcases hs : splitOnNl text with _ | ⟨l0, rest⟩
  · exact absurd hs (splitOnNl_ne_nil text)
  · simp only [read_header, hs] at h
    by_cases h0 : trim l0 = sentinel
    · rw [if_pos h0] at h
      exact scanHeader_nodupKeys rest [] (l0.length + 1) m o h (by simp [NodupKeys])
    · rw [if_neg h0] at h
      simp only [Option.some.injEq, Prod.mk.injEq] at h
      exact h.1 ▸ (by simp [NodupKeys])

/-- Looking up any key outside the final four-key update of `read_content`
reads through to the header-over-base merge. -/
theorem read_content_form (filename text : List Char) (site r : Dict)
    (hdr : Dict) (e : Nat)
    (hrc : read_content filename text site = some r)
    (hh : read_header text = some (hdr, e)) (k : List Char)
    (hk : k ∉ finalKeys) :
    dlookup r k = dlookup (dupdate (baseParams filename site) hdr) k := by
  have hne : sl "content" ≠ k ∧ sl "short_date" ≠ k ∧
      sl "human_date" ≠ k ∧ sl "rfc_2822_date" ≠ k := by
    simp only [finalKeys, List.mem_cons, List.not_mem_nil, or_false, not_or] at hk
    exact ⟨fun h => hk.1 h.symm, fun h => hk.2.1 h.symm,
      fun h => hk.2.2.1 h.symm, fun h => hk.2.2.2 h.symm⟩
  simp only [read_content, hh] at hrc
  rcases hd : dlookup (dupdate (baseParams filename site) hdr) (sl "date") with _ | dt
  · rw [hd] at hrc; simp at hrc
  rcases hf : dlookup (dupdate (baseParams filename site) hdr)
      (sl "date_human_format") with _ | fm
  · rw [hd, hf] at hrc; simp at hrc
  rw [hd, hf] at hrc
  simp only [Option.some.injEq] at hrc
  rw [← hrc]
  rw [dlookup_dinsert_ne _ _ _ _ hne.2.2.2, dlookup_dinsert_ne _ _ _ _ hne.2.2.1,
      dlookup_dinsert_ne _ _ _ _ hne.2.1, dlookup_dinsert_ne _ _ _ _ hne.1]

/-! ### Claim theorems for read_content's parameter merging -/

/-- C4: the header mapping is merged on top of both the base parameters and
the filename-derived date/slug pair, so for any key the header defines
(other than the four keys of the final content/date-variants update,
which in particular excludes `date` and `slug`), the produced item
carries the header's value. -/
theorem header_wins (filename text : List Char) (site : Dict) (r : Dict)
    (hdr : Dict) (e : Nat) (k v : List Char)
    (hrc : read_content filename text site = some r)
    (hh : read_header text = some (hdr, e))
    (hk : k ∉ finalKeys)
    (hv : dlookup hdr k = some v) :
    dlookup r k = some v := by
  rw [read_content_form filename text site r hdr e hrc hh k hk]
  exact dlookup_dupdate_of_nodup _ hdr k v (read_header_nodupKeys text hdr e hh) hv

/-- Witness for C4: a header that defines both `date` and `slug` overrides the
filename-derived pair in the produced item. -/
theorem header_wins_witness :
    dlookup ((read_content (sl "2020-01-01-post.md")
        (sl "---\ndate: 2021-05-05\nslug: other\n---\nbody")
        (default_site_params (sl "2026"))).getD [])
      (sl "date") = some (sl "2021-05-05") ∧
    dlookup ((read_content (sl "2020-01-01-post.md")
        (sl "---\ndate: 2021-05-05\nslug: other\n---\nbody")
        (default_site_params (sl "2026"))).getD [])
      (sl "slug") = some (sl "other") := by
  constructor
  · exact header_wins (sl "2020-01-01-post.md")
      (sl "---\ndate: 2021-05-05\nslug: other\n---\nbody")
      (default_site_params (sl "2026")) _
      [(sl "date", sl "2021-05-05"), (sl "slug", sl "other")] 37
      (sl "date") (sl "2021-05-05") (by decide) (by decide) (by decide) (by decide)
  · exact header_wins (sl "2020-01-01-post.md")
      (sl "---\ndate: 2021-05-05\nslug: other\n---\nbody")
      (default_site_params (sl "2026")) _
      [(sl "date", sl "2021-05-05"), (sl "slug", sl "other")] 37
      (sl "slug") (sl "other") (by decide) (by decide) (by decide) (by decide)

/-! ### Claim theorems for the filename-derived date and slug -/

theorem isDate10_length (d : List Char) (h : isDate10 d = true) : d.length = 10 := by
  unfold isDate10 at h
  split at h
  · simp_all
  · simp at h

/-- C2 (amended): for every filename whose stem decomposes as a
`\d\d\d\d-\d\d-\d\d` prefix, a dash, and a non-empty remainder, the
derived pair is that date and that remainder; for every filename with a
non-empty stem and no such prefix, the derived date is exactly
`1970-01-01` and the slug is the whole stem; and `read_content` installs
the derived pair in the produced item whenever the header does not itself
define `date` or `slug`.  (A filename with an empty stem, excluded here,
derives nothing at all — see the counterexample.) -/
theorem date_slug_of_filename (fname : List Char) :
    (∀ d tail, stemOf fname = d ++ '-' :: tail → isDate10 d = true → tail ≠ [] →
        dateSlug (stemOf fname) = some (d, tail)) ∧
    (hasDatePrefix (stemOf fname) = false → stemOf fname ≠ [] →
        dateSlug (stemOf fname) = some (epochDate, stemOf fname)) ∧
    (∀ text site r hdr e dv sv,
        read_content fname text site = some r →
        read_header text = some (hdr, e) →
        (∀ kv ∈ hdr, kv.1 ≠ sl "date" ∧ kv.1 ≠ sl "slug") →
        dateSlug (stemOf fname) = some (dv, sv) →
        dlookup r (sl "date") = some dv ∧ dlookup r (sl "slug") = some sv) := by
  refine ⟨?_, ?_, ?_⟩
  · intro d tail hdec hd ht
    have hlen : d.length = 10 := isDate10_length d hd
    have htake : (stemOf fname).take 10 = d := by
      rw [hdec, ← hlen, List.take_left]
    have hdrop : (stemOf fname).drop 10 = '-' :: tail := by
      rw [hdec, ← hlen, List.drop_left]
    have hpre : hasDatePrefix (stemOf fname) = true := by
      unfold hasDatePrefix
      rw [htake, hdrop, hd]
      simp [ht]
    have hne : (stemOf fname).isEmpty = false := by
      rw [hdec]
      cases d with
      | nil => simp at hlen
      | cons a as => simp
    unfold dateSlug
    rw [hne, hpre]
    simp only [Bool.false_eq_true, if_false, if_true, Option.some.injEq,
      Prod.mk.injEq]
    refine ⟨htake, ?_⟩
    rw [show (11 : Nat) = 10 + 1 from rfl, ← List.drop_drop, hdrop]
    simp
  · intro hpre hne
    have hne' : (stemOf fname).isEmpty = false := by
      cases hs : stemOf fname with
      | nil => exact absurd hs hne
      | cons a as => simp
    unfold dateSlug
    rw [hne', hpre]
    simp
  · intro text site r hdr e dv sv hrc hh hnod hds
    have hbase : baseParams fname site =
        dinsert (dinsert site (sl "date") dv) (sl "slug") sv := by
      unfold baseParams
      rw [hds]
    constructor
    · rw [read_content_form fname text site r hdr e hrc hh (sl "date") (by decide)]
      rw [dlookup_dupdate_no_key _ hdr (sl "date") (fun kv hkv => (hnod kv hkv).1)]
      rw [hbase, dlookup_dinsert_ne _ _ _ _ (by decide)]
      exact dlookup_dinsert_self site (sl "date") dv
    · rw [read_content_form fname text site r hdr e hrc hh (sl "slug") (by decide)]
      rw [dlookup_dupdate_no_key _ hdr (sl "slug") (fun kv hkv => (hnod kv hkv).2)]
      rw [hbase]
      exact dlookup_dinsert_self _ (sl "slug") sv

/-- Witness for C2 at concrete filenames: a dated stem, an undated stem, and
the read_content installation of the derived pair. -/
theorem date_slug_of_filename_witness :
    dateSlug (stemOf (sl "2020-01-05-my-post.md")) =
      some (sl "2020-01-05", sl "my-post") ∧
    dateSlug (stemOf (sl "about.html")) = some (epochDate, sl "about") ∧
    dlookup ((read_content (sl "about.html") (sl "body")
        (default_site_params (sl "2026"))).getD []) (sl "slug") = some (sl "about") := by
  refine ⟨?_, ?_, ?_⟩
  · exact (date_slug_of_filename (sl "2020-01-05-my-post.md")).1
      (sl "2020-01-05") (sl "my-post") (by decide) (by decide) (by decide)
  · exact (date_slug_of_filename (sl "about.html")).2.1 (by decide) (by decide)
  · exact ((date_slug_of_filename (sl "about.html")).2.2 (sl "body")
      (default_site_params (sl "2026")) _ [] 0 epochDate (sl "about")
      (by decide) (by decide) (by decide) (by decide)).2

/-- C2 counterexample: a filename whose stem is empty (such as `.a.md`, which
the collection globs can match) falls into neither branch of the claim:
the filename regex fails, no date or slug is derived (the claim would
require slug `""`), and `read_content` then dies on the missing `date`
key (modelled by `none`) under the default site parameters. -/
theorem date_slug_empty_stem :
    stemOf (sl ".a.md") = [] ∧
    dateSlug (stemOf (sl ".a.md")) = none ∧
    dateSlug (stemOf (sl ".a.md")) ≠ some (epochDate, stemOf (sl ".a.md")) ∧
    read_content (sl ".a.md") (sl "hello") (default_site_params (sl "2026")) = none := by
  refine ⟨by decide, by decide, by decide, by decide⟩

/-! ### Lexicographic string order lemmas -/

theorem strLt_irrefl (a : List Char) : strLt a a = false := by
  induction a with
  | nil => rfl
  | cons c cs ih => simp [strLt, ih]

theorem strLt_asymm (a b : List Char) (h : strLt a b = true) : strLt b a = false := by
  induction a generalizing b with
  | nil =>
    cases b with
    | nil => simp [strLt] at h
    | cons y ys => simp [strLt]
  | cons x xs ih =>
    cases b with
    | nil => simp [strLt] at h
    | cons y ys =>
      simp only [strLt] at h ⊢
      by_cases hxy : x < y
      · rw [if_neg (lt_asymm hxy), if_pos hxy]
      · rw [if_neg hxy] at h
        by_cases hyx : y < x
        · rw [if_pos hyx] at h
          simp at h
        · rw [if_neg hyx] at h
          rw [if_neg hyx, if_neg hxy]
          exact ih ys h

theorem strLt_false_trans (a b c : List Char) (hab : strLt a b = false)
    (hbc : strLt b c = false) : strLt a c = false := by
  induction a generalizing b c with
  | nil =>
    cases b with
    | nil => exact hbc
    | cons y ys => simp [strLt] at hab
  | cons x xs ih =>
    cases c with
    | nil => simp [strLt]
    | cons z zs =>
      cases b with
      | nil => simp [strLt] at hbc
      | cons y ys =>
        simp only [strLt] at hab hbc ⊢
        by_cases hxy : x < y
        · rw [if_pos hxy] at hab
          simp at hab
        · rw [if_neg hxy] at hab
          by_cases hyz : y < z
          · rw [if_pos hyz] at hbc
            simp at hbc
          · rw [if_neg hyz] at hbc
            by_cases hxz : x < z
            · exact absurd hxz
                (not_lt.mpr (le_trans (not_lt.mp hyz) (not_lt.mp hxy)))
            · rw [if_neg hxz]
              by_cases hzx : z < x
              · rw [if_pos hzx]
              · rw [if_neg hzx]
                by_cases hyx : y < x
                · exact absurd (lt_of_le_of_lt (not_lt.mp hyz) hyx) hzx
                · rw [if_neg hyx] at hab
                  by_cases hzy : z < y
                  · exact absurd (lt_of_lt_of_le hzy (not_lt.mp hxy)) hzx
                  · rw [if_neg hzy] at hbc
                    exact ih ys zs hab hbc

/-! ### Stable descending insertion sort lemmas -/

theorem insertByDate_perm (x : Dict) (l : List Dict) :
    List.Perm (insertByDate x l) (x :: l) := by
  induction l with
  | nil => exact List.Perm.refl _
  | cons y ys ih =>
    simp only [insertByDate]
    by_cases h : strLt (dateOf x) (dateOf y) = true
    · rw [if_pos h]
      exact (List.Perm.cons y ih).trans (List.Perm.swap x y ys)
    · rw [if_neg h]

theorem sortByDateDesc_perm (l : List Dict) : List.Perm (sortByDateDesc l) l := by
  induction l with
  | nil => exact List.Perm.refl _
  | cons x xs ih =>
    exact (insertByDate_perm x (sortByDateDesc xs)).trans (List.Perm.cons x ih)

theorem insertByDate_pairwise (x : Dict) (l : List Dict)
    (h : l.Pairwise (fun a b => strLt (dateOf a) (dateOf b) = false)) :
    (insertByDate x l).Pairwise (fun a b => strLt (dateOf a) (dateOf b) = false) := by
  induction l with
  | nil => simp [insertByDate]
  | cons y ys ih =>
    simp only [insertByDate]
    rcases List.pairwise_cons.mp h with ⟨hy, hys⟩
    by_cases hxy : strLt (dateOf x) (dateOf y) = true
    · rw [if_pos hxy]
      refine List.pairwise_cons.mpr ⟨?_, ih hys⟩
      intro z hz
      rcases List.mem_cons.mp ((insertByDate_perm x ys).mem_iff.mp hz) with rfl | hz'
      · exact strLt_asymm _ _ hxy
      · exact hy z hz'
    · rw [if_neg hxy]
      simp only [Bool.not_eq_true] at hxy
      refine List.pairwise_cons.mpr ⟨?_, h⟩
      intro z hz
      rcases List.mem_cons.mp hz with rfl | hz'
      · exact hxy
      · exact strLt_false_trans _ _ _ hxy (hy z hz')

theorem sortByDateDesc_pairwise (l : List Dict) :
    (sortByDateDesc l).Pairwise (fun a b => strLt (dateOf a) (dateOf b) = false) := by
  induction l with
  | nil => simp [sortByDateDesc]
  | cons x xs ih => exact insertByDate_pairwise x (sortByDateDesc xs) ih

theorem insertByDate_filter_ne (x : Dict) (l : List Dict) (d : List Char)
    (hx : dateOf x ≠ d) :
    (insertByDate x l).filter (fun y => dateOf y == d) =
      l.filter (fun y => dateOf y == d) := by
  have hxd : (dateOf x == d) = false := beq_eq_false_iff_ne.mpr hx
  induction l with
  | nil => simp [insertByDate, List.filter_cons, hxd]
  | cons y ys ih =>
    simp only [insertByDate]
    by_cases hxy : strLt (dateOf x) (dateOf y) = true
    · rw [if_pos hxy]
      simp only [List.filter_cons, ih]
    · rw [if_neg hxy]
      simp only [List.filter_cons, hxd]
      simp

theorem insertByDate_filter_eq (x : Dict) (l : List Dict) (d : List Char)
    (hx : dateOf x = d) :
    (insertByDate x l).filter (fun y => dateOf y == d) =
      x :: l.filter (fun y => dateOf y == d) := by
  have hxd : (dateOf x == d) = true := beq_iff_eq.mpr hx
  induction l with
  | nil => simp [insertByDate, List.filter_cons, hxd]
  | cons y ys ih =>
    simp only [insertByDate]
    by_cases hxy : strLt (dateOf x) (dateOf y) = true
    · rw [if_pos hxy]
      have hyd : (dateOf y == d) = false := by
        refine beq_eq_false_iff_ne.mpr fun hyd => ?_
        rw [← hx] at hyd
        rw [hyd] at hxy
        exact absurd hxy (by simp [strLt_irrefl])
      simp only [List.filter_cons, hyd, ih]
      simp
    · rw [if_neg hxy]
      simp only [List.filter_cons, hxd]
      simp

theorem sortByDateDesc_filter (l : List Dict) (d : List Char) :
    (sortByDateDesc l).filter (fun y => dateOf y == d) =
      l.filter (fun y => dateOf y == d) := by
  induction l with
  | nil => rfl
  | cons x xs ih =>
    show (insertByDate x (sortByDateDesc xs)).filter (fun y => dateOf y == d) = _
    by_cases hx : dateOf x = d
    · rw [insertByDate_filter_eq x _ d hx, ih, List.filter_cons,
        show (dateOf x == d) = true from beq_iff_eq.mpr hx]
      simp
    · rw [insertByDate_filter_ne x _ d hx, ih, List.filter_cons,
        show (dateOf x == d) = false from beq_eq_false_iff_ne.mpr hx]
      simp

/-! ### Claim theorem for make_pages -/

/-- C3: the list returned by `make_pages` is a permutation of the successfully
rendered items (the truthy `render_page` outcomes, in glob enumeration
order), is sorted by the `date` field in descending (lexicographic,
i.e. Python string) order, and items with equal dates keep their original
relative enumeration order. -/
theorem make_pages_sorted (render_results : List (Option Dict)) :
    List.Perm (make_pages render_results) (render_results.filterMap truthy) ∧
    (make_pages render_results).Pairwise
      (fun a b => strLt (dateOf a) (dateOf b) = false) ∧
    ∀ d, (make_pages render_results).filter (fun y => dateOf y == d) =
      (render_results.filterMap truthy).filter (fun y => dateOf y == d) :=
  ⟨sortByDateDesc_perm _, sortByDateDesc_pairwise _,
    fun d => sortByDateDesc_filter _ d⟩

/-! ### Claim theorems for the index summary selection -/

/-- C6 (amended): the `summary` parameter passed to the item layout is the
item's declared `summary` field when present and non-empty; otherwise the
`description` field when present and non-empty; otherwise the
`defaultWordLimit`-word truncation of the item's body.  (Python's `or`
treats an empty string as absent, so a declared-but-empty field is
skipped — see the counterexample.) -/
theorem summary_selection (site page : Dict) :
    (∀ v, dlookup page (sl "summary") = some v → v ≠ [] →
        dlookup (item_params_of site page) (sl "summary") = some v) ∧
    ((dlookup page (sl "summary") = none ∨ dlookup page (sl "summary") = some []) →
      ∀ w, dlookup page (sl "description") = some w → w ≠ [] →
        dlookup (item_params_of site page) (sl "summary") = some w) ∧
    ((dlookup page (sl "summary") = none ∨ dlookup page (sl "summary") = some []) →
      (dlookup page (sl "description") = none ∨
        dlookup page (sl "description") = some []) →
      dlookup (item_params_of site page) (sl "summary") =
        some (truncate ((dlookup page (sl "content")).getD []) defaultWordLimit)) := by
  have hbase : dlookup (item_params_of site page) (sl "summary") =
      some (summary_of page) := dlookup_dinsert_self _ _ _
  refine ⟨?_, ?_, ?_⟩
  · intro v hv hne
    have hv' : v.isEmpty = false := by
      cases v with
      | nil => exact absurd rfl hne
      | cons a as => rfl
    rw [hbase]
    simp [summary_of, orFalsy, hv, hv']
  · intro hs w hw hne
    have hw' : w.isEmpty = false := by
      cases w with
      | nil => exact absurd rfl hne
      | cons a as => rfl
    rw [hbase]
    rcases hs with hs | hs <;> simp [summary_of, orFalsy, hs, hw, hw']
  · intro hs hd
    rw [hbase]
    rcases hs with hs | hs <;> rcases hd with hd | hd <;>
      simp [summary_of, orFalsy, hs, hd]

/-- Witness for the amended C6: each branch of the cascade at a concrete item. -/
theorem summary_selection_witness :
    dlookup (item_params_of [] [(sl "summary", sl "S")]) (sl "summary") =
      some (sl "S") ∧
    dlookup (item_params_of [] [(sl "description", sl "D")]) (sl "summary") =
      some (sl "D") ∧
    dlookup (item_params_of [] [(sl "content", sl "one two")]) (sl "summary") =
      some (sl "one two") := by
  refine ⟨(summary_selection [] _).1 (sl "S") (by decide) (by decide),
    (summary_selection [] _).2.1 (Or.inl (by decide)) (sl "D") (by decide) (by decide),
    ((summary_selection [] _).2.2 (Or.inl (by decide)) (Or.inl (by decide))).trans
      (by decide)⟩

/-- C6 counterexample: an item whose header declares `summary` as the empty
string; the claim says the declared value is passed, but Python's `or`
falls through to the `description` field. -/
theorem summary_empty_declared :
    dlookup [(sl "summary", []), (sl "description", sl "About"),
        (sl "content", sl "Body")] (sl "summary") = some [] ∧
    dlookup (item_params_of [] [(sl "summary", []), (sl "description", sl "About"),
        (sl "content", sl "Body")]) (sl "summary") = some (sl "About") ∧
    some (sl "About") ≠ some ([] : List Char) := by
  refine ⟨by decide, by decide, by decide⟩

/-! ### Claim theorem for make_index's mutation of site_params -/

/-- C10: `make_index` always overwrites the `content` key of the site-params
dict it is handed (with the concatenated rendered items), and sets
`front_content` when a truthy front-content block is given; since
`make_site` hands the same mutated `dir_params` dict first to the index
pass and then to the RSS pass of one directory, the `front_content`
written by the index pass is still visible to the feed-layout render even
though the RSS call passes no front content. -/
theorem make_index_mutation (render : Dict → List Char) (dir_params f : Dict)
    (pages1 pages2 : List Dict) (hf : f ≠ []) :
    dlookup (make_index_step render (some f) pages1 dir_params) (sl "content") =
      some (catAll (pages1.map (fun p => render (item_params_of dir_params p)))) ∧
    dlookup (make_index_step render (some f) pages1 dir_params)
        (sl "front_content") = some ((dlookup f (sl "content")).getD []) ∧
    dlookup (make_index_step render none pages2
        (make_index_step render (some f) pages1 dir_params))
        (sl "front_content") = some ((dlookup f (sl "content")).getD []) := by
  have hfe : f.isEmpty = false := by
    cases f with
    | nil => exact absurd rfl hf
    | cons a as => rfl
  refine ⟨?_, ?_, ?_⟩
  · simp only [make_index_step, hfe, Bool.false_eq_true, if_false]
    exact dlookup_dinsert_self _ _ _
  · simp only [make_index_step, hfe, Bool.false_eq_true, if_false]
    rw [dlookup_dinsert_ne _ _ _ _ (by decide)]
    exact dlookup_dinsert_self _ _ _
  · simp only [make_index_step, hfe, Bool.false_eq_true, if_false]
    rw [dlookup_dinsert_ne _ _ _ _ (by decide),
      dlookup_dinsert_ne _ _ _ _ (by decide)]
    exact dlookup_dinsert_self _ _ _

/-- Witness for C10: the front content written by the index pass is read back
from the parameters handed to the RSS pass. -/
theorem make_index_mutation_witness :
    dlookup (make_index_step (fun _ => []) none []
        (make_index_step (fun _ => []) (some [(sl "content", sl "FRONT")]) []
          [(sl "title", sl "Blog")])) (sl "front_content") = some (sl "FRONT") :=
  ((make_index_mutation (fun _ => []) [(sl "title", sl "Blog")]
      [(sl "content", sl "FRONT")] [] [] (by decide)).2.2).trans (by decide)

/-! ### Lemmas on truncate -/

theorem isEmpty_false_of_ne_nil (l : List Char) (h : l ≠ []) : l.isEmpty = false := by
  cases l with
  | nil => exact absurd rfl h
  | cons a as => rfl

theorem eq_nil_of_isEmpty (l : List Char) (h : l.isEmpty = true) : l = [] := by
  cases l with
  | nil => rfl
  | cons a as => simp [List.isEmpty] at h

theorem contains_iff (l : List Char) (c : Char) : l.contains c = true ↔ c ∈ l := by
  induction l with
  | nil => simp [List.contains, List.elem]
  | cons a as ih =>
    by_cases h : c = a
    · subst h
      simp [List.contains, List.elem]
    · have hb : (c == a) = false := by simp [h]
      simp [List.contains, List.elem, hb, ih, h]

theorem dropWhile_sublist_self (p : Char → Bool) (l : List Char) :
    List.Sublist (l.dropWhile p) l := by
  induction l with
  | nil => exact List.Sublist.refl _
  | cons a as ih =>
    rw [List.dropWhile_cons]
    by_cases h : p a = true
    · rw [if_pos h]
      exact ih.trans (List.sublist_cons_self a as)
    · rw [if_neg h]

theorem contains_false_of_sublist (la lb : List Char) (hs : List.Sublist la lb)
    (h : lb.contains '>' = false) : la.contains '>' = false := by
  cases hb : la.contains '>'
  · rfl
  · have hmem : '>' ∈ lb := hs.subset ((contains_iff la '>').mp hb)
    have hc := (contains_iff lb '>').mpr hmem
    rw [h] at hc
    exact hc.symm

theorem hasOpenClose_cons_lt (l : List Char) :
    hasOpenClose ('<' :: l) = l.contains '>' := by
  simp [hasOpenClose, List.dropWhile_cons]

theorem hasOpenClose_cons_ne (c : Char) (l : List Char) (h : c ≠ '<') :
    hasOpenClose (c :: l) = hasOpenClose l := by
  simp [hasOpenClose, List.dropWhile_cons, h]

theorem hasOpenClose_of_no_gt (l : List Char) (h : l.contains '>' = false) :
    hasOpenClose l = false := by
  unfold hasOpenClose
  exact contains_false_of_sublist _ l (dropWhile_sublist_self _ l) h

theorem stripTagsGo_subset (l : List Char) :
    ∀ b c, c ≠ ' ' → c ∈ stripTagsGo b l → c ∈ l := by
  induction l with
  | nil =>
    intro b c _ h
    cases b <;> simp [stripTagsGo] at h
  | cons a as ih =>
    intro b c hc h
    cases b with
    | true =>
      simp only [stripTagsGo] at h
      by_cases ha : a = '>'
      · rw [if_pos ha] at h
        exact List.mem_cons_of_mem a (ih false c hc h)
      · rw [if_neg ha] at h
        exact List.mem_cons_of_mem a (ih true c hc h)
    | false =>
      simp only [stripTagsGo] at h
      by_cases ha : (a = '<' && as.contains '>') = true
      · rw [if_pos ha] at h
        rcases List.mem_cons.mp h with rfl | h'
        · exact absurd rfl hc
        · exact List.mem_cons_of_mem a (ih true c hc h')
      · rw [if_neg ha] at h
        rcases List.mem_cons.mp h with rfl | h'
        · exact List.mem_cons_self c as
        · exact List.mem_cons_of_mem a (ih false c hc h')

theorem stripTagsGo_no_tag (l : List Char) :
    ∀ b, hasOpenClose (stripTagsGo b l) = false := by
  induction l with
  | nil => intro b; cases b <;> rfl
  | cons a as ih =>
    intro b
    cases b with
    | true =>
      simp only [stripTagsGo]
      by_cases ha : a = '>'
      · rw [if_pos ha]; exact ih false
      · rw [if_neg ha]; exact ih true
    | false =>
      simp only [stripTagsGo]
      by_cases ha : (a = '<' && as.contains '>') = true
      · rw [if_pos ha, hasOpenClose_cons_ne ' ' _ (by decide)]
        exact ih true
      · rw [if_neg ha]
        by_cases ha' : a = '<'
        · subst ha'
          rw [hasOpenClose_cons_lt]
          have hgt : as.contains '>' = false := by
            cases hg : as.contains '>'
            · rfl
            · exact absurd (show (decide ('<' = '<') && as.contains '>') = true by
                rw [hg]; decide) ha
          cases hg2 : (stripTagsGo false as).contains '>'
          · rfl
          · have hmem : '>' ∈ as :=
              stripTagsGo_subset as false '>' (by decide)
                ((contains_iff _ _).mp hg2)
            have hc2 := (contains_iff as '>').mpr hmem
            rw [hgt] at hc2
            exact hc2.symm
        · rw [hasOpenClose_cons_ne a _ ha']
          exact ih false

theorem pySplitGo_nonspace_prefix (w : List Char)
    (hw : ∀ c ∈ w, isPySpace c = false) :
    ∀ acc rest, pySplitGo acc (w ++ rest) = pySplitGo (w.reverse ++ acc) rest := by
  induction w with
  | nil => intro acc rest; simp
  | cons c w' ih =>
    intro acc rest
    have hc : isPySpace c = false := hw c (by simp)
    rw [List.cons_append]
    simp only [pySplitGo, hc, Bool.false_eq_true, if_false]
    rw [ih (fun x hx => hw x (by simp [hx])) (c :: acc) rest]
    congr 1
    simp

theorem pySplitGo_space_acc (acc rest : List Char) (h : acc ≠ []) :
    pySplitGo acc (' ' :: rest) = acc.reverse :: pySplitGo [] rest := by
  have h1 : isPySpace ' ' = true := rfl
  have h2 : acc.isEmpty = false := isEmpty_false_of_ne_nil acc h
  simp only [pySplitGo, h1, if_true, h2, Bool.false_eq_true, if_false]

theorem pySplitGo_nil_acc (acc : List Char) (h : acc ≠ []) :
    pySplitGo acc [] = [acc.reverse] := by
  have h2 : acc.isEmpty = false := isEmpty_false_of_ne_nil acc h
  simp only [pySplitGo, h2, Bool.false_eq_true, if_false]

theorem pySplit_joinSpace (ws : List (List Char))
    (h : ∀ w ∈ ws, w ≠ [] ∧ ∀ c ∈ w, isPySpace c = false) :
    pySplit (joinSpace ws) = ws := by
  induction ws with
  | nil => rfl
  | cons w ws' ih =>
    obtain ⟨hw1, hw2⟩ := h w (by simp)
    cases ws' with
    | nil =>
      show pySplitGo [] (joinSpace [w]) = [w]
      have : joinSpace [w] = w ++ [] := by simp [joinSpace]
      rw [this, pySplitGo_nonspace_prefix w hw2 [] [], List.append_nil,
        pySplitGo_nil_acc _ (by simpa using hw1), List.reverse_reverse]
    | cons w2 ws'' =>
      show pySplitGo [] (joinSpace (w :: w2 :: ws'')) = _
      rw [show joinSpace (w :: w2 :: ws'') = w ++ ' ' :: joinSpace (w2 :: ws'')
          from rfl,
        pySplitGo_nonspace_prefix w hw2 [] (' ' :: joinSpace (w2 :: ws'')),
        List.append_nil,
        pySplitGo_space_acc _ _ (by simpa using hw1), List.reverse_reverse]
      exact congrArg (w :: ·) (ih (fun x hx => h x (by simp [hx])))

theorem pySplitGo_words (l : List Char) :
    ∀ acc, (∀ c ∈ acc, isPySpace c = false) →
      ∀ w ∈ pySplitGo acc l, w ≠ [] ∧ ∀ c ∈ w, isPySpace c = false := by
  induction l with
  | nil =>
    intro acc hacc w hw
    by_cases h : acc.isEmpty = true
    · rw [eq_nil_of_isEmpty acc h] at hw
      simp [pySplitGo] at hw
    · have hne : acc ≠ [] := fun hh => h (by simp [hh])
      rw [pySplitGo_nil_acc acc hne] at hw
      rcases List.mem_singleton.mp hw with rfl
      refine ⟨by simpa using hne, fun c hc => hacc c (List.mem_reverse.mp hc)⟩
  | cons a as ih =>
    intro acc hacc w hw
    by_cases ha : isPySpace a = true
    · simp only [pySplitGo, ha, if_true] at hw
      by_cases h0 : acc.isEmpty = true
      · rw [if_pos h0] at hw
        exact ih [] (by simp) w hw
      · rw [if_neg h0] at hw
        rcases List.mem_cons.mp hw with rfl | hw'
        · have hne : acc ≠ [] := fun hh => h0 (by simp [hh])
          refine ⟨by simpa using hne, fun c hc => hacc c (List.mem_reverse.mp hc)⟩
        · exact ih [] (by simp) w hw'
    · have ha' : isPySpace a = false := by simpa using ha
      simp only [pySplitGo, ha', Bool.false_eq_true, if_false] at hw
      refine ih (a :: acc) ?_ w hw
      intro c hc
      rcases List.mem_cons.mp hc with rfl | hc'
      · exact ha'
      · exact hacc c hc'

theorem pySplit_words (l : List Char) (w : List Char) (hw : w ∈ pySplit l) :
    w ≠ [] ∧ ∀ c ∈ w, isPySpace c = false :=
  pySplitGo_words l [] (by simp) w hw

theorem catAll_append (a b : List (List Char)) :
    catAll (a ++ b) = catAll a ++ catAll b := by
  induction a with
  | nil => rfl
  | cons w ws ih => simp [catAll, ih]

theorem catAll_take_sublist (ws : List (List Char)) (n : Nat) :
    List.Sublist (catAll (ws.take n)) (catAll ws) := by
  conv_rhs => rw [← List.take_append_drop n ws]
  rw [catAll_append]
  exact List.sublist_append_left _ _

theorem mem_catAll (ws : List (List Char)) (c : Char) (w : List Char)
    (hw : w ∈ ws) (hc : c ∈ w) : c ∈ catAll ws := by
  induction ws with
  | nil => simp at hw
  | cons x xs ih =>
    rcases List.mem_cons.mp hw with rfl | hw'
    · exact List.mem_append_left _ hc
    · exact List.mem_append_right _ (ih hw')

theorem catAll_pySplitGo (l : List Char) :
    ∀ acc, catAll (pySplitGo acc l) =
      acc.reverse ++ l.filter (fun c => !isPySpace c) := by
  induction l with
  | nil =>
    intro acc
    by_cases h : acc.isEmpty = true
    · rw [eq_nil_of_isEmpty acc h]
      simp [pySplitGo, catAll]
    · have hne : acc ≠ [] := fun hh => h (by simp [hh])
      rw [pySplitGo_nil_acc acc hne]
      simp [catAll]
  | cons a as ih =>
    intro acc
    by_cases ha : isPySpace a = true
    · have hfil : (a :: as).filter (fun c => !isPySpace c) =
          as.filter (fun c => !isPySpace c) := by
        simp [List.filter_cons, ha]
      simp only [pySplitGo, ha, if_true]
      by_cases h0 : acc.isEmpty = true
      · rw [if_pos h0, eq_nil_of_isEmpty acc h0, ih [], hfil]
      · rw [if_neg h0, hfil]
        show acc.reverse ++ catAll (pySplitGo [] as) = _
        rw [ih []]
        simp
    · have ha' : isPySpace a = false := by simpa using ha
      have hfil : (a :: as).filter (fun c => !isPySpace c) =
          a :: as.filter (fun c => !isPySpace c) := by
        simp [List.filter_cons, ha']
      simp only [pySplitGo, ha', Bool.false_eq_true, if_false]
      rw [ih (a :: acc), hfil]
      simp

theorem catAll_pySplit (l : List Char) :
    catAll (pySplit l) = l.filter (fun c => !isPySpace c) := by
  simpa using catAll_pySplitGo l []

theorem mem_joinSpace (ws : List (List Char)) (c : Char) (h : c ∈ joinSpace ws) :
    c = ' ' ∨ ∃ w ∈ ws, c ∈ w := by
  induction ws with
  | nil => simp [joinSpace] at h
  | cons w ws' ih =>
    cases ws' with
    | nil => exact Or.inr ⟨w, by simp, h⟩
    | cons w2 ws'' =>
      rw [show joinSpace (w :: w2 :: ws'') = w ++ ' ' :: joinSpace (w2 :: ws'')
          from rfl] at h
      rcases List.mem_append.mp h with h' | h'
      · exact Or.inr ⟨w, by simp, h'⟩
      · rcases List.mem_cons.mp h' with rfl | h''
        · exact Or.inl rfl
        · rcases ih h'' with h3 | ⟨w3, hw3, hc3⟩
          · exact Or.inl h3
          · exact Or.inr ⟨w3, by simp [hw3], hc3⟩

theorem filter_angle_joinSpace (ws : List (List Char)) :
    (joinSpace ws).filter isAngle = (catAll ws).filter isAngle := by
  induction ws with
  | nil => rfl
  | cons w ws' ih =>
    cases ws' with
    | nil => simp [joinSpace, catAll]
    | cons w2 ws'' =>
      show (w ++ ' ' :: joinSpace (w2 :: ws'')).filter isAngle =
        (w ++ catAll (w2 :: ws'')).filter isAngle
      rw [List.filter_append, List.filter_append, List.filter_cons]
      have hsp : isAngle ' ' = false := rfl
      simp [hsp, ih]

theorem contains_gt_filter_angle (l : List Char) :
    (l.filter isAngle).contains '>' = l.contains '>' := by
  have h1 : (l.filter isAngle).contains '>' = true ↔ l.contains '>' = true := by
    rw [contains_iff, contains_iff, List.mem_filter]
    simp [isAngle]
  cases hb : l.contains '>'
  · cases hb2 : (l.filter isAngle).contains '>'
    · rfl
    · rw [hb] at h1
      exact (h1.mp hb2).symm
  · rw [hb] at h1
    exact h1.mpr rfl

theorem hasOpenClose_filter_angle (l : List Char) :
    hasOpenClose l = hasOpenClose (l.filter isAngle) := by
  induction l with
  | nil => rfl
  | cons c cs ih =>
    by_cases hlt : c = '<'
    · subst hlt
      rw [hasOpenClose_cons_lt, List.filter_cons,
        if_pos (show isAngle '<' = true from rfl), hasOpenClose_cons_lt,
        contains_gt_filter_angle]
    · by_cases hgt : c = '>'
      · subst hgt
        rw [hasOpenClose_cons_ne _ _ (by decide), List.filter_cons,
          if_pos (show isAngle '>' = true from rfl),
          hasOpenClose_cons_ne _ _ (by decide)]
        exact ih
      · have hna : isAngle c = false := by simp [isAngle, hlt, hgt]
        rw [hasOpenClose_cons_ne _ _ hlt, List.filter_cons, hna]
        simpa using ih

theorem hasOpenClose_tail (a : Char) (l : List Char)
    (h : hasOpenClose (a :: l) = false) : hasOpenClose l = false := by
  by_cases ha : a = '<'
  · subst ha
    rw [hasOpenClose_cons_lt] at h
    exact hasOpenClose_of_no_gt l h
  · rwa [hasOpenClose_cons_ne a l ha] at h

theorem hasOpenClose_antitone (la lb : List Char) (hs : List.Sublist la lb)
    (h : hasOpenClose lb = false) : hasOpenClose la = false := by
  induction hs with
  | slnil => rfl
  | cons a hsub ih => exact ih (hasOpenClose_tail a _ h)
  | @cons₂ l1 l2 a hsub ih =>
    by_cases ha : a = '<'
    · subst ha
      rw [hasOpenClose_cons_lt] at h ⊢
      exact contains_false_of_sublist l1 l2 hsub h
    · rw [hasOpenClose_cons_ne _ _ ha] at h ⊢
      exact ih h

/-! ### Claim theorem for truncate -/

/-- C5: for every input string and word limit, the words of `truncate`'s
result are exactly the first `n` words of the quote-converted,
newline-flattened, tag-stripped text (so the result has exactly `n`
space-separated tokens, or fewer when that text has fewer); the result
contains no double quote (every one was converted to a single quote
before any removal); no tag-shaped substring `<...>` remains (no `<`
occurs before a `>`); and the default word limit is 25. -/
theorem truncate_spec (text : List Char) (n : Nat) :
    pySplit (truncate text n) =
      (pySplit (stripTags (convertNewlines (convertQuotes text)))).take n ∧
    (pySplit (truncate text n)).length =
      min n (pySplit (stripTags (convertNewlines (convertQuotes text)))).length ∧
    '"' ∉ truncate text n ∧
    hasOpenClose (truncate text n) = false ∧
    defaultWordLimit = 25 := by
  have h1 : pySplit (truncate text n) =
      (pySplit (stripTags (convertNewlines (convertQuotes text)))).take n := by
    refine pySplit_joinSpace _ (fun w hw => ?_)
    exact pySplit_words _ w (List.take_subset _ _ hw)
  refine ⟨h1, by rw [h1, List.length_take], ?_, ?_, rfl⟩
  · intro hq
    rcases mem_joinSpace _ _ hq with h' | ⟨w, hw, hc⟩
    · exact absurd h' (by decide)
    · have hw' : w ∈ pySplit (stripTags (convertNewlines (convertQuotes text))) :=
        List.take_subset _ _ hw
      have h2 : '"' ∈ catAll (pySplit (stripTags (convertNewlines
          (convertQuotes text)))) := mem_catAll _ _ _ hw' hc
      rw [catAll_pySplit] at h2
      have h3 : '"' ∈ stripTags (convertNewlines (convertQuotes text)) :=
        List.mem_of_mem_filter h2
      have h4 : '"' ∈ convertNewlines (convertQuotes text) :=
        stripTagsGo_subset _ false '"' (by decide) h3
      rcases List.mem_map.mp h4 with ⟨c1, hc1, he1⟩
      by_cases hn : c1 = '\n'
      · rw [if_pos hn] at he1
        exact absurd he1 (by decide)
      · rw [if_neg hn] at he1
        subst he1
        rcases List.mem_map.mp hc1 with ⟨c0, _, he0⟩
        by_cases h0 : c0 = '"'
        · rw [if_pos h0] at he0
          exact absurd he0 (by decide)
        · rw [if_neg h0] at he0
          exact h0 he0
  · have hm : hasOpenClose (stripTags (convertNewlines (convertQuotes text))) =
        false := stripTagsGo_no_tag _ false
    rw [hasOpenClose_filter_angle]
    rw [show truncate text n = joinSpace ((pySplit (stripTags (convertNewlines
        (convertQuotes text)))).take n) from rfl]
    rw [filter_angle_joinSpace]
    refine hasOpenClose_antitone _ _ ?_ hm
    refine (List.filter_sublist _).trans ?_
    refine (catAll_take_sublist _ n).trans ?_
    rw [catAll_pySplit]
    exact List.filter_sublist _

/-! ### Lemmas on the strptime embedding -/

theorem isDigitC_facts (c : Char) (h : isDigitC c = true) :
    48 ≤ c.toNat ∧ c.toNat ≤ 57 := by
  simpa [isDigitC] using h

theorem isDigitC_of_toNat (c : Char) (h1 : 48 ≤ c.toNat) (h2 : c.toNat ≤ 57) :
    isDigitC c = true := by
  simp [isDigitC]
  exact ⟨h1, h2⟩

theorem toNatD_one (a : Char) : toNatD [a] = digitVal a := by
  simp [toNatD]

theorem toNatD_two (a b : Char) : toNatD [a, b] = digitVal a * 10 + digitVal b := by
  simp [toNatD, List.foldl]

theorem toNatD_four (a b c d : Char) :
    toNatD [a, b, c, d] =
      ((digitVal a * 10 + digitVal b) * 10 + digitVal c) * 10 + digitVal d := by
  simp [toNatD, List.foldl]

theorem firstHit_cons_some (f : Nat × List Char → Option (Nat × Nat × Nat))
    (c : Nat × List Char) (cs : List (Nat × List Char)) (v : Nat × Nat × Nat)
    (h : f c = some v) : firstHit f (c :: cs) = some v := by
  simp [firstHit, h]

theorem firstHit_some (f : Nat × List Char → Option (Nat × Nat × Nat)) :
    ∀ cands v, firstHit f cands = some v → ∃ c ∈ cands, f c = some v := by
  intro cands
  induction cands with
  | nil => intro v h; simp [firstHit] at h
  | cons c cs ih =>
    intro v h
    simp only [firstHit] at h
    cases hf : f c with
    | some w =>
      rw [hf] at h
      exact ⟨c, by simp, hf.trans h⟩
    | none =>
      rw [hf] at h
      rcases ih v h with ⟨c', hc', hfc'⟩
      exact ⟨c', by simp [hc'], hfc'⟩

theorem exists_four (l : List Char) (h : l.length = 4) :
    ∃ a b c d, l = [a, b, c, d] := by
  rcases l with _ | ⟨a, _ | ⟨b, _ | ⟨c, _ | ⟨d, _ | ⟨e, t⟩⟩⟩⟩⟩ <;> simp at h
  exact ⟨a, b, c, d, rfl⟩

theorem year4_eq (a b c d : Char) (rest : List Char)
    (ha : isDigitC a = true) (hb : isDigitC b = true)
    (hc : isDigitC c = true) (hd : isDigitC d = true) :
    year4 (a :: b :: c :: d :: rest) =
      some (((digitVal a * 10 + digitVal b) * 10 + digitVal c) * 10 + digitVal d,
        rest) := by
  simp [year4, ha, hb, hc, hd]

theorem year4_some (s : List Char) (y : Nat) (rest : List Char)
    (h : year4 s = some (y, rest)) :
    ∃ a b c d, s = a :: b :: c :: d :: rest ∧
      isDigitC a = true ∧ isDigitC b = true ∧ isDigitC c = true ∧
      isDigitC d = true ∧ y = toNatD [a, b, c, d] := by
  match s, h with
  | a :: b :: c :: d :: r, h => ?_
  case _ =>
    simp only [year4] at h
    by_cases hdig : (isDigitC a && isDigitC b && isDigitC c && isDigitC d) = true
    · rw [if_pos hdig] at h
      simp only [Option.some.injEq, Prod.mk.injEq] at h
      simp only [Bool.and_eq_true] at hdig
      exact ⟨a, b, c, d, by rw [h.2],
        hdig.1.1.1, hdig.1.1.2, hdig.1.2, hdig.2,
        by rw [← h.1, toNatD_four]⟩
    · rw [if_neg hdig] at h
      exact absurd h (by simp)

theorem mem_mCands (r : List Char) (mc : Nat × List Char) (h : mc ∈ mCands r) :
    ∃ w, r = w ++ mc.2 ∧ (∀ c ∈ w, isDigitC c = true) ∧
      (w.length = 1 ∨ w.length = 2) ∧ mc.1 = toNatD w ∧
      1 ≤ mc.1 ∧ mc.1 ≤ 12 := by
  match r with
  | [] => simp [mCands] at h
  | [a] =>
    simp only [mCands] at h
    by_cases hc : (isDigitC a && 1 ≤ digitVal a) = true
    · rw [if_pos hc] at h
      simp only [Bool.and_eq_true, decide_eq_true_eq] at hc
      rcases List.mem_singleton.mp h with rfl
      have hf := isDigitC_facts a hc.1
      refine ⟨[a], by simp, by simp [hc.1], by simp, by rw [toNatD_one],
        hc.2, ?_⟩
      simp only [digitVal]
      omega
    · rw [if_neg hc] at h
      simp at h
  | a :: b :: rest =>
    simp only [mCands] at h
    rcases List.mem_append.mp h with h2 | h1
    · by_cases hc : ((a.toNat = 49 && isDigitC b && digitVal b ≤ 2) ||
          (a.toNat = 48 && isDigitC b && 1 ≤ digitVal b)) = true
      · rw [if_pos hc] at h2
        rcases List.mem_singleton.mp h2 with rfl
        simp only [Bool.or_eq_true, Bool.and_eq_true, decide_eq_true_eq] at hc
        have hb : isDigitC b = true := by
          rcases hc with ⟨⟨_, hb⟩, _⟩ | ⟨⟨_, hb⟩, _⟩ <;> exact hb
        have ha : isDigitC a = true := by
          rcases hc with ⟨⟨ha', _⟩, _⟩ | ⟨⟨ha', _⟩, _⟩ <;>
            exact isDigitC_of_toNat a (by omega) (by omega)
        have hbf := isDigitC_facts b hb
        have hda : digitVal a = a.toNat - 48 := rfl
        have hdb : digitVal b = b.toNat - 48 := rfl
        refine ⟨[a, b], by simp, ?_, by simp, by rw [toNatD_two], ?_, ?_⟩
        · intro c hcm
          rcases List.mem_cons.mp hcm with rfl | hcm'
          · exact ha
          · rcases List.mem_singleton.mp hcm' with rfl
            exact hb
        · rcases hc with ⟨⟨ha', _⟩, hb2⟩ | ⟨⟨ha', _⟩, hb2⟩ <;> omega
        · rcases hc with ⟨⟨ha', _⟩, hb2⟩ | ⟨⟨ha', _⟩, hb2⟩ <;> omega
      · rw [if_neg hc] at h2
        simp at h2
    · by_cases hc : (isDigitC a && 1 ≤ digitVal a) = true
      · rw [if_pos hc] at h1
        simp only [Bool.and_eq_true, decide_eq_true_eq] at hc
        rcases List.mem_singleton.mp h1 with rfl
        have hf := isDigitC_facts a hc.1
        refine ⟨[a], by simp, by simp [hc.1], by simp, by rw [toNatD_one],
          hc.2, ?_⟩
        simp only [digitVal]
        omega
      · rw [if_neg hc] at h1
        simp at h1

theorem mem_dCands (r : List Char) (dc : Nat × List Char) (h : dc ∈ dCands r) :
    ∃ w, r = w ++ dc.2 ∧ (∀ c ∈ w, isDigitC c = true) ∧
      (w.length = 1 ∨ w.length = 2) ∧ dc.1 = toNatD w ∧
      1 ≤ dc.1 ∧ dc.1 ≤ 31 := by
  match r with
  | [] => simp [dCands] at h
  | [a] =>
    simp only [dCands] at h
    by_cases hc : (isDigitC a && 1 ≤ digitVal a) = true
    · rw [if_pos hc] at h
      simp only [Bool.and_eq_true, decide_eq_true_eq] at hc
      rcases List.mem_singleton.mp h with rfl
      have hf := isDigitC_facts a hc.1
      refine ⟨[a], by simp, by simp [hc.1], by simp, by rw [toNatD_one],
        hc.2, ?_⟩
      simp only [digitVal]
      omega
    · rw [if_neg hc] at h
      simp at h
  | a :: b :: rest =>
    simp only [dCands] at h
    rcases List.mem_append.mp h with h2 | h1
    · by_cases hc : ((a.toNat = 51 && isDigitC b && digitVal b ≤ 1) ||
          ((a.toNat = 49 || a.toNat = 50) && isDigitC b) ||
          (a.toNat = 48 && isDigitC b && 1 ≤ digitVal b)) = true
      · rw [if_pos hc] at h2
        rcases List.mem_singleton.mp h2 with rfl
        simp only [Bool.or_eq_true, Bool.and_eq_true, decide_eq_true_eq] at hc
        have hb : isDigitC b = true := by
          rcases hc with (⟨⟨_, hb⟩, _⟩ | ⟨_, hb⟩) | ⟨⟨_, hb⟩, _⟩ <;> exact hb
        have ha : isDigitC a = true := by
          rcases hc with (⟨⟨ha', _⟩, _⟩ | ⟨ha', _⟩) | ⟨⟨ha', _⟩, _⟩
          · exact isDigitC_of_toNat a (by omega) (by omega)
          · rcases ha' with ha' | ha' <;>
              exact isDigitC_of_toNat a (by omega) (by omega)
          · exact isDigitC_of_toNat a (by omega) (by omega)
        have hbf := isDigitC_facts b hb
        have hda : digitVal a = a.toNat - 48 := rfl
        have hdb : digitVal b = b.toNat - 48 := rfl
        refine ⟨[a, b], by simp, ?_, by simp, by rw [toNatD_two], ?_, ?_⟩
        · intro c hcm
          rcases List.mem_cons.mp hcm with rfl | hcm'
          · exact ha
          · rcases List.mem_singleton.mp hcm' with rfl
            exact hb
        · rcases hc with (⟨⟨ha', _⟩, hb2⟩ | ⟨ha', _⟩) | ⟨⟨ha', _⟩, hb2⟩
          · omega
          · rcases ha' with ha' | ha' <;> omega
          · omega
        · rcases hc with (⟨⟨ha', _⟩, hb2⟩ | ⟨ha', _⟩) | ⟨⟨ha', _⟩, hb2⟩
          · omega
          · rcases ha' with ha' | ha' <;> omega
          · omega
      · rw [if_neg hc] at h2
        simp at h2
    · by_cases hc : (isDigitC a && 1 ≤ digitVal a) = true
      · rw [if_pos hc] at h1
        simp only [Bool.and_eq_true, decide_eq_true_eq] at hc
        rcases List.mem_singleton.mp h1 with rfl
        have hf := isDigitC_facts a hc.1
        refine ⟨[a], by simp, by simp [hc.1], by simp, by rw [toNatD_one],
          hc.2, ?_⟩
        simp only [digitVal]
        omega
      · rw [if_neg hc] at h1
        simp at h1

theorem exists_one (l : List Char) (h : l.length = 1) : ∃ a, l = [a] := by
  rcases l with _ | ⟨a, _ | ⟨b, t⟩⟩ <;> simp at h
  exact ⟨a, rfl⟩

theorem exists_two (l : List Char) (h : l.length = 2) : ∃ a b, l = [a, b] := by
  rcases l with _ | ⟨a, _ | ⟨b, _ | ⟨c, t⟩⟩⟩ <;> simp at h
  exact ⟨a, b, rfl⟩

theorem expectDash_dash (r : List Char) : expectDash ('-' :: r) = some r := by
  simp [expectDash]

theorem expectDash_some (r r2 : List Char) (h : expectDash r = some r2) :
    r = '-' :: r2 := by
  cases r with
  | nil => simp [expectDash] at h
  | cons c cs =>
    simp only [expectDash] at h
    by_cases hc : c = '-'
    · rw [if_pos hc] at h
      rw [hc, Option.some.inj h]
    · rw [if_neg hc] at h
      exact absurd h (by simp)

theorem dCands_firstHit (ds : List Char) (Y M : Nat)
    (hdd : ∀ c ∈ ds, isDigitC c = true) (hdl : ds.length = 1 ∨ ds.length = 2)
    (hd1 : 1 ≤ toNatD ds) (hd31 : toNatD ds ≤ 31) :
    firstHit (fun dc => if dc.2.isEmpty then some (Y, M, dc.1) else none)
      (dCands ds) = some (Y, M, toNatD ds) := by
  rcases hdl with hdl | hdl
  · obtain ⟨d1, rfl⟩ := exists_one ds hdl
    have h1 := hdd d1 (by simp)
    have hf1 := isDigitC_facts d1 h1
    have hdv1 : digitVal d1 = d1.toNat - 48 := rfl
    rw [toNatD_one] at hd1 hd31 ⊢
    have hcond : (isDigitC d1 && 1 ≤ digitVal d1) = true := by
      simp [h1]
      omega
    simp [dCands, hcond, firstHit]
  · obtain ⟨d1, d2, rfl⟩ := exists_two ds hdl
    have h1 := hdd d1 (by simp)
    have h2 := hdd d2 (by simp)
    have hf1 := isDigitC_facts d1 h1
    have hf2 := isDigitC_facts d2 h2
    have hdv1 : digitVal d1 = d1.toNat - 48 := rfl
    have hdv2 : digitVal d2 = d2.toNat - 48 := rfl
    rw [toNatD_two] at hd1 hd31 ⊢
    have hcond : ((d1.toNat = 51 && isDigitC d2 && digitVal d2 ≤ 1) ||
        ((d1.toNat = 49 || d1.toNat = 50) && isDigitC d2) ||
        (d1.toNat = 48 && isDigitC d2 && 1 ≤ digitVal d2)) = true := by
      simp [h2]
      omega
    simp only [dCands, hcond, if_true, List.singleton_append]
    exact firstHit_cons_some _ _ _ _ (by simp)

theorem mCands_head (ms tail : List Char)
    (hmd : ∀ c ∈ ms, isDigitC c = true) (hml : ms.length = 1 ∨ ms.length = 2)
    (hm1 : 1 ≤ toNatD ms) (hm12 : toNatD ms ≤ 12) :
    ∃ tl, mCands (ms ++ '-' :: tail) = (toNatD ms, '-' :: tail) :: tl := by
  rcases hml with hml | hml
  · obtain ⟨m1, rfl⟩ := exists_one ms hml
    have h1 := hmd m1 (by simp)
    have hf1 := isDigitC_facts m1 h1
    have hdv1 : digitVal m1 = m1.toNat - 48 := rfl
    rw [toNatD_one] at hm1 hm12 ⊢
    have hnd : isDigitC '-' = false := rfl
    have hcond1 : (isDigitC m1 && 1 ≤ digitVal m1) = true := by
      simp [h1]
      omega
    refine ⟨[], ?_⟩
    simp [mCands, hnd, hcond1]
  · obtain ⟨m1, m2, rfl⟩ := exists_two ms hml
    have h1 := hmd m1 (by simp)
    have h2 := hmd m2 (by simp)
    have hf1 := isDigitC_facts m1 h1
    have hf2 := isDigitC_facts m2 h2
    have hdv1 : digitVal m1 = m1.toNat - 48 := rfl
    have hdv2 : digitVal m2 = m2.toNat - 48 := rfl
    rw [toNatD_two] at hm1 hm12 ⊢
    have hcond : ((m1.toNat = 49 && isDigitC m2 && digitVal m2 ≤ 2) ||
        (m1.toNat = 48 && isDigitC m2 && 1 ≤ digitVal m2)) = true := by
      simp [h2]
      omega
    by_cases hone : (isDigitC m1 && 1 ≤ digitVal m1) = true
    · refine ⟨[(digitVal m1, m2 :: ('-' :: tail))], ?_⟩
      simp [mCands, hcond, hone]
    · refine ⟨[], ?_⟩
      simp [mCands, hcond, hone]

theorem strptimeDashed_of_valid (s : List Char) (h : ValidDashed s) :
    ∃ ymd, strptimeDashed s = some ymd := by
  obtain ⟨ys, ms, ds, hs, hlen, hdig, ⟨hmd, hml, hm1, hm12⟩,
    ⟨hdd, hdl, hd1, hd31⟩, hy1, hdm⟩ := h
  obtain ⟨a, b, c, d, rfl⟩ := exists_four ys hlen
  subst hs
  have hda := hdig a (by simp)
  have hdb := hdig b (by simp)
  have hdc := hdig c (by simp)
  have hdd4 := hdig d (by simp)
  have hy4 : year4 (a :: b :: c :: d :: '-' :: (ms ++ '-' :: ds)) =
      some (toNatD [a, b, c, d], '-' :: (ms ++ '-' :: ds)) := by
    rw [year4_eq a b c d _ hda hdb hdc hdd4, toNatD_four]
  obtain ⟨tl, hmc⟩ := mCands_head ms ds hmd hml hm1 hm12
  have hdc2 := dCands_firstHit ds (toNatD [a, b, c, d]) (toNatD ms) hdd hdl hd1 hd31
  have hmatch : matchDashed (a :: b :: c :: d :: '-' :: (ms ++ '-' :: ds)) =
      some (toNatD [a, b, c, d], toNatD ms, toNatD ds) := by
    unfold matchDashed
    rw [hy4]
    simp only [expectDash_dash]
    rw [hmc]
    apply firstHit_cons_some
    simp only [expectDash_dash]
    exact hdc2
  have hvd : validDate (toNatD [a, b, c, d]) (toNatD ms) (toNatD ds) = true := by
    have e1 := toNatD_four a b c d
    have f1 := isDigitC_facts a hda
    have f2 := isDigitC_facts b hdb
    have f3 := isDigitC_facts c hdc
    have f4 := isDigitC_facts d hdd4
    have g1 : digitVal a = a.toNat - 48 := rfl
    have g2 : digitVal b = b.toNat - 48 := rfl
    have g3 : digitVal c = c.toNat - 48 := rfl
    have g4 : digitVal d = d.toNat - 48 := rfl
    simp only [validDate, Bool.and_eq_true, decide_eq_true_eq]
    refine ⟨⟨⟨⟨⟨hy1, ?_⟩, hm1⟩, hm12⟩, hd1⟩, hdm⟩
    omega
  refine ⟨(toNatD [a, b, c, d], toNatD ms, toNatD ds), ?_⟩
  simp [strptimeDashed, hmatch, hvd]

theorem valid_of_strptimeDashed (s : List Char) (ymd : Nat × Nat × Nat)
    (h : strptimeDashed s = some ymd) : ValidDashed s := by
  unfold strptimeDashed at h
  cases hm : matchDashed s with
  | none => rw [hm] at h; simp at h
  | some w =>
    rw [hm] at h
    by_cases hv : validDate w.1 w.2.1 w.2.2 = true
    · unfold matchDashed at hm
      cases hy : year4 s with
      | none => rw [hy] at hm; simp at hm
      | some yr =>
        rw [hy] at hm
        simp only at hm
        cases hed : expectDash yr.2 with
        | none => rw [hed] at hm; simp at hm
        | some r2 =>
          rw [hed] at hm
          simp only at hm
          rcases firstHit_some _ _ _ hm with ⟨mc, hmcm, hf⟩
          cases hed2 : expectDash mc.2 with
          | none => rw [hed2] at hf; simp at hf
          | some r3 =>
            rw [hed2] at hf
            simp only at hf
            rcases firstHit_some _ _ _ hf with ⟨dc, hdcm, hg⟩
            by_cases hde : dc.2.isEmpty = true
            · rw [if_pos hde] at hg
              have hw : w = (yr.1, mc.1, dc.1) := (Option.some.inj hg).symm
              obtain ⟨A, B, C, D, hsd, hA, hB, hC, hD, hYv⟩ :=
                year4_some s yr.1 yr.2 (by rw [hy])
              obtain ⟨wm, hr2, hwmd, hwml, hwmval, hwm1, hwm12⟩ :=
                mem_mCands r2 mc hmcm
              obtain ⟨wd, hr3, hwdd, hwdl, hwdval, hwd1, hwd31⟩ :=
                mem_dCands r3 dc hdcm
              have hdnil : dc.2 = [] := eq_nil_of_isEmpty _ hde
              have hyd2 := expectDash_some yr.2 r2 hed
              have hmd2 := expectDash_some mc.2 r3 hed2
              rw [hw] at hv
              simp only [validDate, Bool.and_eq_true, decide_eq_true_eq] at hv
              obtain ⟨⟨⟨⟨⟨hv1, hv2⟩, hv3⟩, hv4⟩, hv5⟩, hv6⟩ := hv
              refine ⟨[A, B, C, D], wm, wd, ?_, by simp, ?_, ?_, ?_, ?_, ?_⟩
              · rw [hsd, hyd2, hr2, hmd2, hr3, hdnil]
                simp
              · intro c hc
                simp only [List.mem_cons, List.not_mem_nil, or_false] at hc
                rcases hc with rfl | rfl | rfl | rfl <;> assumption
              · exact ⟨hwmd, hwml, by rw [← hwmval]; exact hwm1,
                  by rw [← hwmval]; exact hwm12⟩
              · exact ⟨hwdd, hwdl, by rw [← hwdval]; exact hwd1,
                  by rw [← hwdval]; exact hwd31⟩
              · rw [← hYv]
                exact hv1
              · rw [← hYv, ← hwmval, ← hwdval]
                exact hv6
            · rw [if_neg hde] at hg
              exact absurd hg (by simp)
    · simp only at h
      rw [if_neg hv] at h
      exact absurd h (by simp)

/-! ### Claim theorems for format_time -/

/-- C7 counterexample: `"2020-02-30"` matches the literal `YYYY-MM-DD` shape
but `format_time` fails on it (February has no 30th) and returns the
empty string, while `"2020-1-5"` matches neither claimed shape yet
succeeds, because strptime's `%m` and `%d` accept single digits. -/
theorem format_time_shape_cex :
    shapeClaimed (sl "2020-02-30") = true ∧
    format_time (sl "2020-02-30") (sl "%Y-%m-%d") = [] ∧
    shapeClaimed (sl "2020-1-5") = false ∧
    format_time (sl "2020-1-5") (sl "%Y-%m-%d") = sl "2020-01-05" := by
  refine ⟨by decide, by decide, by decide, by decide⟩

/-- C7 (amended): `format_time` tries `%Y-%m-%d` and then `%Y%m%d` under
CPython strptime semantics — the month and day fields accept one or two
digits and the parsed triple must be a valid calendar date — returning
the strftime rendering of the first pattern that succeeds, and logging a
warning and returning the empty string when both fail (the build
continues); the dashed pattern succeeds exactly on the strings described
by `ValidDashed`. -/
theorem format_time_spec (s f : List Char) :
    (∀ y m d, strptimeDashed s = some (y, m, d) →
        format_time s f = strftime y m d f) ∧
    (strptimeDashed s = none → ∀ y m d, strptimeCompact s = some (y, m, d) →
        format_time s f = strftime y m d f) ∧
    (strptimeDashed s = none → strptimeCompact s = none →
        format_time s f = []) ∧
    ((∃ ymd, strptimeDashed s = some ymd) ↔ ValidDashed s) := by
  refine ⟨?_, ?_, ?_, ?_⟩
  · intro y m d h
    simp [format_time, h]
  · intro h1 y m d h2
    simp [format_time, h1, h2]
  · intro h1 h2
    simp [format_time, h1, h2]
  · constructor
    · rintro ⟨ymd, h⟩
      exact valid_of_strptimeDashed s ymd h
    · exact strptimeDashed_of_valid s

/-- Witness for the amended C7 at concrete dates. -/
theorem format_time_spec_witness :
    format_time (sl "2021-05-05") (sl "%d %b, %Y") = sl "05 May, 2021" ∧
    format_time (sl "bogus") (sl "%Y") = [] ∧
    ValidDashed (sl "2021-05-05") := by
  refine ⟨?_, ?_, ?_⟩
  · exact ((format_time_spec (sl "2021-05-05") (sl "%d %b, %Y")).1 2021 5 5
      (by decide)).trans (by decide)
  · exact (format_time_spec (sl "bogus") (sl "%Y")).2.2.1 (by decide) (by decide)
  · exact (format_time_spec (sl "2021-05-05") (sl "%Y")).2.2.2.mp
      ⟨(2021, 5, 5), by decide⟩

end Makesitex
